import Mathlib

/-!
Verification of the Permafrost Engine repository against its
natural-language specification.

Part 1 embeds the camera module (src/src/camera.c) shallowly: float
values are modelled as rationals, and the math-library calls that the
camera code makes (sqrt, cos, sin, the DEG_TO_RAD conversion, coming
from the engine's pfmath module which is not part of the sources)
are abstracted as an explicit record of rational functions, so every
theorem quantifies over them.

Part 2 models the Navigation and Flow-Field Pathfinding Engine from the
specification (its sources are not in the repository snapshot): cost
grids, the wavefront solver over the ring of integers adjoined sqrt 2,
portal construction, the flow-field cache single-flight discipline, and
steering's treatment of the no-path sentinel.
-/

/- ## Part 1: camera.c -/

/-- The C `vec3_t` with float members modelled as rationals. -/
structure vec3_t where
  x : ℚ
  y : ℚ
  z : ℚ
deriving DecidableEq

/-- The C `struct bound_box` fields used by camera.c. -/
structure bound_box where
  x : ℚ
  z : ℚ
  w : ℚ
  h : ℚ
deriving DecidableEq

/-- The C `struct camera` from src/src/camera.c. -/
structure camera where
  speed : ℚ
  sensitivity : ℚ
  pos : vec3_t
  front : vec3_t
  up : vec3_t
  pitch : ℚ
  yaw : ℚ
  prev_frame_ts : ℕ
  bounded : Bool
  bounds : bound_box
deriving DecidableEq

/-- Modelled from the spec: the float math routines camera.c calls
(`sqrt`, `cos`, `sin` and the `DEG_TO_RAD` conversion); their sources
(libm, config.h) are not in the repository snapshot, so they are kept
abstract as arbitrary rational functions. -/
structure FloatOps where
  sqrt : ℚ → ℚ
  cos : ℚ → ℚ
  sin : ℚ → ℚ
  deg2rad : ℚ → ℚ

/-- Modelled from the spec: `PFM_Vec3_Add` (componentwise sum; pfmath is
not in the repository snapshot). -/
def vec3_add (a b : vec3_t) : vec3_t := ⟨a.x + b.x, a.y + b.y, a.z + b.z⟩

/-- Modelled from the spec: `PFM_Vec3_Sub` (componentwise difference). -/
def vec3_sub (a b : vec3_t) : vec3_t := ⟨a.x - b.x, a.y - b.y, a.z - b.z⟩

/-- Modelled from the spec: `PFM_Vec3_Scale` (scalar multiple). -/
def vec3_scale (a : vec3_t) (s : ℚ) : vec3_t := ⟨a.x * s, a.y * s, a.z * s⟩

/-- Modelled from the spec: `PFM_Vec3_Cross` (standard cross product). -/
def vec3_cross (a b : vec3_t) : vec3_t :=
  ⟨a.y * b.z - a.z * b.y, a.z * b.x - a.x * b.z, a.x * b.y - a.y * b.x⟩

/-- Modelled from the spec: `PFM_Vec3_Normal` divides each component by
the vector's length, obtained from the abstract square root. -/
def vec3_normal (ops : FloatOps) (a : vec3_t) : vec3_t :=
  let len := ops.sqrt (a.x * a.x + a.y * a.y + a.z * a.z)
  ⟨a.x / len, a.y / len, a.z / len⟩

/-- Unsigned 32-bit subtraction `a - b`, as C computes `curr - prev_frame_ts`
on `uint32_t` values. -/
def sub32 (a b : ℕ) : ℕ := (a + 2 ^ 32 - b % 2 ^ 32) % 2 ^ 32

/-- `camera_pos_in_bounds` from camera.c: X increases to the left, so the
position is within bounds when `bounds.x - w <= pos.x <= bounds.x` and
`bounds.z <= pos.z <= bounds.z + h`. -/
def camera_pos_in_bounds (cam : camera) : Bool :=
  (decide (cam.pos.x ≤ cam.bounds.x) && decide (cam.bounds.x - cam.bounds.w ≤ cam.pos.x))
    && (decide (cam.bounds.z ≤ cam.pos.z) && decide (cam.pos.z ≤ cam.bounds.z + cam.bounds.h))

/-- `camera_move_within_bounds` from camera.c, as a function of the
position: clamp x with MIN then MAX, and z with MAX then MIN, in the
exact order of the source. -/
def camera_move_within_bounds (pos : vec3_t) (b : bound_box) : vec3_t :=
  let x1 := min pos.x b.x
  let x2 := max x1 (b.x - b.w)
  let z1 := max pos.z b.z
  let z2 := min z1 (b.z + b.h)
  ⟨x2, pos.y, z2⟩

/-- Apply the `if(cam->bounded) camera_move_within_bounds(cam);` epilogue
shared by all the movement ticks. -/
def camera_clamp_if_bounded (cam : camera) : camera :=
  if cam.bounded then { cam with pos := camera_move_within_bounds cam.pos cam.bounds } else cam

/-- The `if(!cam->prev_frame_ts) cam->prev_frame_ts = SDL_GetTicks();`
prologue shared by all the movement ticks; `t1` is the value returned by
that first `SDL_GetTicks()` call. -/
def camera_init_ts (cam : camera) (t1 : ℕ) : camera :=
  if cam.prev_frame_ts = 0 then { cam with prev_frame_ts := t1 } else cam

/-- `Camera_SetPos` from camera.c. -/
def Camera_SetPos (cam : camera) (pos : vec3_t) : camera := { cam with pos := pos }

/-- `Camera_SetPitchAndYaw` from camera.c: store the angles unclamped and
recompute the front and up vectors. -/
def Camera_SetPitchAndYaw (ops : FloatOps) (cam : camera) (pitch yaw : ℚ) : camera :=
  let front : vec3_t :=
    ⟨ops.cos (ops.deg2rad yaw) * ops.cos (ops.deg2rad pitch),
     ops.sin (ops.deg2rad pitch),
     ops.sin (ops.deg2rad yaw) * ops.cos (ops.deg2rad pitch) * (-1)⟩
  let f := vec3_normal ops front
  let xz : vec3_t := ⟨f.z, 0, -f.x⟩
  let up := vec3_normal ops (vec3_cross f xz)
  { cam with pitch := pitch, yaw := yaw, front := f, up := up }

/-- `Camera_MoveLeftTick` from camera.c; `t1` and `t2` are the results of
the two `SDL_GetTicks()` calls. -/
def Camera_MoveLeftTick (ops : FloatOps) (cam : camera) (t1 t2 : ℕ) : camera :=
  let c := camera_init_ts cam t1
  let tdelta := sub32 t2 c.prev_frame_ts
  let right := vec3_normal ops (vec3_cross c.front c.up)
  let vdelta := vec3_scale right ((tdelta : ℚ) * c.speed)
  camera_clamp_if_bounded { c with pos := vec3_add c.pos vdelta }

/-- `Camera_MoveRightTick` from camera.c. -/
def Camera_MoveRightTick (ops : FloatOps) (cam : camera) (t1 t2 : ℕ) : camera :=
  let c := camera_init_ts cam t1
  let tdelta := sub32 t2 c.prev_frame_ts
  let right := vec3_normal ops (vec3_cross c.front c.up)
  let vdelta := vec3_scale right ((tdelta : ℚ) * c.speed)
  camera_clamp_if_bounded { c with pos := vec3_sub c.pos vdelta }

/-- `Camera_MoveFrontTick` from camera.c. -/
def Camera_MoveFrontTick (_ops : FloatOps) (cam : camera) (t1 t2 : ℕ) : camera :=
  let c := camera_init_ts cam t1
  let tdelta := sub32 t2 c.prev_frame_ts
  let vdelta := vec3_scale c.front ((tdelta : ℚ) * c.speed)
  camera_clamp_if_bounded { c with pos := vec3_add c.pos vdelta }

/-- `Camera_MoveBackTick` from camera.c. -/
def Camera_MoveBackTick (_ops : FloatOps) (cam : camera) (t1 t2 : ℕ) : camera :=
  let c := camera_init_ts cam t1
  let tdelta := sub32 t2 c.prev_frame_ts
  let vdelta := vec3_scale c.front ((tdelta : ℚ) * c.speed)
  camera_clamp_if_bounded { c with pos := vec3_sub c.pos vdelta }

/-- `Camera_MoveDirectionTick` from camera.c: after possibly initializing
`prev_frame_ts`, it computes the magnitude of `dir` and returns before
moving or clamping when the magnitude is zero. -/
def Camera_MoveDirectionTick (ops : FloatOps) (cam : camera) (dir : vec3_t)
    (t1 t2 : ℕ) : camera :=
  let c := camera_init_ts cam t1
  let mag := ops.sqrt (dir.x ^ 2 + dir.y ^ 2 + dir.z ^ 2)
  if mag = 0 then c
  else
    let ndir := vec3_normal ops dir
    let tdelta := sub32 t2 c.prev_frame_ts
    let vdelta := vec3_scale ndir ((tdelta : ℚ) * c.speed)
    camera_clamp_if_bounded { c with pos := vec3_add c.pos vdelta }

/-- `Camera_ChangeDirection` from camera.c: scale the mouse deltas by the
sensitivity, add to yaw, subtract from pitch, clamp pitch with the two
ternaries of the source, then recompute front and up. -/
def Camera_ChangeDirection (ops : FloatOps) (cam : camera) (dx dy : ℤ) : camera :=
  let sdx := (dx : ℚ) * cam.sensitivity
  let sdy := (dy : ℚ) * cam.sensitivity
  let yaw1 := cam.yaw + sdx
  let p1 := cam.pitch - sdy
  let p2 := if p1 < 89 then p1 else 89
  let p3 := if p2 > -89 then p2 else -89
  let front : vec3_t :=
    ⟨ops.cos (ops.deg2rad yaw1) * ops.cos (ops.deg2rad p3),
     ops.sin (ops.deg2rad p3),
     ops.sin (ops.deg2rad yaw1) * ops.cos (ops.deg2rad p3) * (-1)⟩
  let f := vec3_normal ops front
  let xz : vec3_t := ⟨f.z, 0, -f.x⟩
  let up := vec3_normal ops (vec3_cross f xz)
  { cam with yaw := yaw1, pitch := p3, front := f, up := up }

/-- A concrete interpretation of the float math ops, used by witnesses;
its square root maps 0 to 0, as the C `sqrt` does. -/
def opsId : FloatOps := ⟨fun q => q, fun q => q, fun q => q, fun q => q⟩

/-- The clamp of `camera_move_within_bounds` lands in the bounds box
whenever the box has non-negative width and height. -/
theorem camera_move_within_bounds_in_bounds (pos : vec3_t) (b : bound_box)
    (hw : 0 ≤ b.w) (hh : 0 ≤ b.h) :
    let p := camera_move_within_bounds pos b
    p.x ≤ b.x ∧ b.x - b.w ≤ p.x ∧ b.z ≤ p.z ∧ p.z ≤ b.z + b.h := by
  refine ⟨?_, ?_, ?_, ?_⟩
  · show max (min pos.x b.x) (b.x - b.w) ≤ b.x
    exact max_le (min_le_right _ _) (by linarith)
  · exact le_max_right _ _
  · show b.z ≤ min (max pos.z b.z) (b.z + b.h)
    exact le_min (le_max_right _ _) (by linarith)
  · exact min_le_right _ _

/-- After `camera_clamp_if_bounded` on a bounded camera with a
non-negatively sized box, `camera_pos_in_bounds` holds. -/
theorem camera_clamp_if_bounded_in_bounds (cam : camera)
    (hb : cam.bounded = true) (hw : 0 ≤ cam.bounds.w) (hh : 0 ≤ cam.bounds.h) :
    camera_pos_in_bounds (camera_clamp_if_bounded cam) = true := by
  have h := camera_move_within_bounds_in_bounds cam.pos cam.bounds hw hh
  simp only [camera_clamp_if_bounded, hb, if_true]
  simp only [camera_pos_in_bounds, Bool.and_eq_true, decide_eq_true_eq]
  exact ⟨⟨h.1, h.2.1⟩, ⟨h.2.2.1, h.2.2.2⟩⟩

theorem camera_init_ts_bounded (cam : camera) (t1 : ℕ) :
    (camera_init_ts cam t1).bounded = cam.bounded := by
  unfold camera_init_ts; split <;> rfl

theorem camera_init_ts_bounds (cam : camera) (t1 : ℕ) :
    (camera_init_ts cam t1).bounds = cam.bounds := by
  unfold camera_init_ts; split <;> rfl

theorem clamp_pos_in_bounds_of (c : camera) (p : vec3_t)
    (hb : c.bounded = true) (hw : 0 ≤ c.bounds.w) (hh : 0 ≤ c.bounds.h) :
    camera_pos_in_bounds (camera_clamp_if_bounded { c with pos := p }) = true :=
  camera_clamp_if_bounded_in_bounds _ hb hw hh

/-- A bounded camera whose position lies outside its bounds box, together
with a zero direction vector: the concrete input on which
`Camera_MoveDirectionTick` skips the clamp. -/
def camOut : camera :=
  { speed := 1, sensitivity := 1, pos := ⟨5, 0, 5⟩, front := ⟨0, 0, 1⟩,
    up := ⟨0, 1, 0⟩, pitch := 0, yaw := 0, prev_frame_ts := 1,
    bounded := true, bounds := ⟨0, 0, 1, 1⟩ }

/-- A zero-magnitude direction makes `Camera_MoveDirectionTick` return
early, leaving every field but `prev_frame_ts` unchanged. -/
theorem moveDirectionTick_zero_aux (ops : FloatOps) (cam : camera)
    (dir : vec3_t) (t1 t2 : ℕ) (h0 : ops.sqrt 0 = 0)
    (hx : dir.x = 0) (hy : dir.y = 0) (hz : dir.z = 0) :
    Camera_MoveDirectionTick ops cam dir t1 t2 =
      { cam with prev_frame_ts := if cam.prev_frame_ts = 0 then t1 else cam.prev_frame_ts } := by
  have hmag : ops.sqrt (dir.x ^ 2 + dir.y ^ 2 + dir.z ^ 2) = 0 := by
    rw [hx, hy, hz]; simpa using h0
  show (if ops.sqrt (dir.x ^ 2 + dir.y ^ 2 + dir.z ^ 2) = 0 then camera_init_ts cam t1
        else camera_clamp_if_bounded _) = _
  rw [if_pos hmag]
  unfold camera_init_ts
  split <;> rfl

/-- C8, counterexample: on a bounded camera with a non-negatively sized
bounds box whose position starts outside the box,
`Camera_MoveDirectionTick` with a zero-magnitude direction returns before
the clamp, so the position is still out of bounds when it returns. -/
theorem C8_moveDirectionTick_skips_clamp :
    camOut.bounded = true ∧ 0 ≤ camOut.bounds.w ∧ 0 ≤ camOut.bounds.h ∧
      camera_pos_in_bounds (Camera_MoveDirectionTick opsId camOut ⟨0, 0, 0⟩ 1 1) = false := by
  have hnoop := moveDirectionTick_zero_aux opsId camOut ⟨0, 0, 0⟩ 1 1 rfl rfl rfl rfl
  refine ⟨rfl, by norm_num [camOut], by norm_num [camOut], ?_⟩
  rw [hnoop]
  norm_num [camOut, camera_pos_in_bounds]

/-- C8, amended: after `Camera_MoveLeftTick`, `Camera_MoveRightTick`,
`Camera_MoveFrontTick` or `Camera_MoveBackTick` on a bounded camera whose
bounds box has non-negative width and height, the position satisfies
`bounds.x - w <= pos.x <= bounds.x` and `bounds.z <= pos.z <= bounds.z + h`
regardless of the prior position; the same holds for
`Camera_MoveDirectionTick` provided the direction's computed magnitude is
non-zero (with a zero magnitude it returns before the clamp). -/
theorem C8_move_ticks_reclamp_bounds (ops : FloatOps) (cam : camera)
    (dir : vec3_t) (t1 t2 : ℕ) (hb : cam.bounded = true)
    (hw : 0 ≤ cam.bounds.w) (hh : 0 ≤ cam.bounds.h)
    (hmag : ops.sqrt (dir.x ^ 2 + dir.y ^ 2 + dir.z ^ 2) ≠ 0) :
    camera_pos_in_bounds (Camera_MoveLeftTick ops cam t1 t2) = true ∧
      camera_pos_in_bounds (Camera_MoveRightTick ops cam t1 t2) = true ∧
      camera_pos_in_bounds (Camera_MoveFrontTick ops cam t1 t2) = true ∧
      camera_pos_in_bounds (Camera_MoveBackTick ops cam t1 t2) = true ∧
      camera_pos_in_bounds (Camera_MoveDirectionTick ops cam dir t1 t2) = true := by
  have hb' : (camera_init_ts cam t1).bounded = true := by
    rw [camera_init_ts_bounded]; exact hb
  have hw' : 0 ≤ (camera_init_ts cam t1).bounds.w := by
    rw [camera_init_ts_bounds]; exact hw
  have hh' : 0 ≤ (camera_init_ts cam t1).bounds.h := by
    rw [camera_init_ts_bounds]; exact hh
  refine ⟨clamp_pos_in_bounds_of _ _ hb' hw' hh',
          clamp_pos_in_bounds_of _ _ hb' hw' hh',
          clamp_pos_in_bounds_of _ _ hb' hw' hh',
          clamp_pos_in_bounds_of _ _ hb' hw' hh', ?_⟩
  show camera_pos_in_bounds
      (if ops.sqrt (dir.x ^ 2 + dir.y ^ 2 + dir.z ^ 2) = 0 then camera_init_ts cam t1
       else camera_clamp_if_bounded _) = true
  rw [if_neg hmag]
  exact clamp_pos_in_bounds_of _ _ hb' hw' hh'

/-- Witness for the amended C8 on a concrete bounded camera starting out
of bounds with a non-zero direction. -/
theorem C8_move_ticks_reclamp_bounds_witness :
    camera_pos_in_bounds (Camera_MoveLeftTick opsId camOut 1 1) = true ∧
      camera_pos_in_bounds (Camera_MoveRightTick opsId camOut 1 1) = true ∧
      camera_pos_in_bounds (Camera_MoveFrontTick opsId camOut 1 1) = true ∧
      camera_pos_in_bounds (Camera_MoveBackTick opsId camOut 1 1) = true ∧
      camera_pos_in_bounds (Camera_MoveDirectionTick opsId camOut ⟨1, 0, 0⟩ 1 1) = true :=
  C8_move_ticks_reclamp_bounds opsId camOut ⟨1, 0, 0⟩ 1 1 rfl (by norm_num [camOut])
    (by norm_num [camOut]) (by norm_num [opsId])

/-- C9: `Camera_SetPitchAndYaw` stores the pitch with no clamp, while
after `Camera_ChangeDirection` the pitch always lies in [-89, 89] and the
yaw is left unconstrained (it becomes exactly `yaw + dx * sensitivity`),
for every starting camera state and every input pair. -/
theorem C9_changeDirection_clamps_pitch (ops : FloatOps) (cam : camera)
    (p y : ℚ) (dx dy : ℤ) :
    (Camera_SetPitchAndYaw ops cam p y).pitch = p ∧
      -89 ≤ (Camera_ChangeDirection ops cam dx dy).pitch ∧
      (Camera_ChangeDirection ops cam dx dy).pitch ≤ 89 ∧
      (Camera_ChangeDirection ops cam dx dy).yaw = cam.yaw + (dx : ℚ) * cam.sensitivity := by
  have hp : (Camera_ChangeDirection ops cam dx dy).pitch =
      (if (if cam.pitch - (dy : ℚ) * cam.sensitivity < 89 then
            cam.pitch - (dy : ℚ) * cam.sensitivity else 89) > -89 then
        (if cam.pitch - (dy : ℚ) * cam.sensitivity < 89 then
            cam.pitch - (dy : ℚ) * cam.sensitivity else 89)
       else -89) := rfl
  refine ⟨rfl, ?_, ?_, rfl⟩ <;> rw [hp] <;> split_ifs <;> linarith

/-- C10: a zero-magnitude direction makes `Camera_MoveDirectionTick`
return early; the camera is unchanged except that `prev_frame_ts` is set
from the clock when it was previously zero. -/
theorem C10_moveDirectionTick_zero_dir (ops : FloatOps) (cam : camera)
    (dir : vec3_t) (t1 t2 : ℕ) (h0 : ops.sqrt 0 = 0)
    (hx : dir.x = 0) (hy : dir.y = 0) (hz : dir.z = 0) :
    Camera_MoveDirectionTick ops cam dir t1 t2 =
      { cam with prev_frame_ts := if cam.prev_frame_ts = 0 then t1 else cam.prev_frame_ts } :=
  moveDirectionTick_zero_aux ops cam dir t1 t2 h0 hx hy hz

/-- Witness for C10 at a concrete camera, clock values and zero vector. -/
theorem C10_moveDirectionTick_zero_dir_witness :
    Camera_MoveDirectionTick opsId camOut ⟨0, 0, 0⟩ 7 9 =
      { camOut with prev_frame_ts := if camOut.prev_frame_ts = 0 then 7 else camOut.prev_frame_ts } :=
  C10_moveDirectionTick_zero_dir opsId camOut ⟨0, 0, 0⟩ 7 9 rfl rfl rfl rfl

/- ## Part 2: the Navigation and Flow-Field Pathfinding Engine,
modelled from the specification (its sources are not in the snapshot). -/

instance : Zsqrtd.Nonsquare 2 :=
  ⟨fun n h => by
    rcases n with _ | _ | m
    · exact absurd h (by decide)
    · exact absurd h (by decide)
    · nlinarith [h]⟩

/-- Integration values live in the ordered ring of integers adjoined
sqrt 2, in half-cost units: the element `a + b*sqrt 2` stands for the
spec's cost `(a + b*sqrt 2) / 2`, so that the spec's step cost
`(cost a + cost b)/2 * scale` is the integral element
`(cost a + cost b) * scale`. Comparisons and sums are unaffected by the
global factor 2. -/
abbrev Val : Type := ℤ√((2 : ℕ) : ℤ)

/-- Grid cells addressed by integer coordinates. -/
abbrev Cell := ℤ × ℤ

/-- Modelled from the spec: a per-chunk Cost Grid (§3, §4.1): a 2D array
of cell traversal costs with the chunk's dimensions; the Cost Grid
Builder itself is out of the snapshot, so grids are taken as given. -/
structure CostGrid where
  w : ℕ
  h : ℕ
  cost : Cell → ℕ

/-- Modelled from the spec: the IMPASSABLE cost sentinel; regular costs
are 1..254. -/
def IMPASSABLE : ℕ := 255

/-- A cell is inside the chunk's rectangle. -/
def inBounds (g : CostGrid) (c : Cell) : Prop :=
  0 ≤ c.1 ∧ c.1 < (g.w : ℤ) ∧ 0 ≤ c.2 ∧ c.2 < (g.h : ℤ)

instance (g : CostGrid) (c : Cell) : Decidable (inBounds g c) := by
  unfold inBounds; infer_instance

/-- A cell that is not IMPASSABLE. -/
def passable (g : CostGrid) (c : Cell) : Prop := g.cost c ≠ IMPASSABLE

instance (g : CostGrid) (c : Cell) : Decidable (passable g c) := by
  unfold passable; infer_instance

/-- The spec's Cost Grid invariant (§3): every cell cost is strictly
positive (1..254) or the IMPASSABLE sentinel. -/
def WellFormed (g : CostGrid) : Prop := ∀ c, 1 ≤ g.cost c ∧ g.cost c ≤ IMPASSABLE

/-- The fixed neighbor-enumeration order of the 8-connected wavefront
(§4.3: ties broken by a fixed neighbor-enumeration order). -/
def nbrOffsets : List Cell :=
  [(-1, -1), (0, -1), (1, -1), (-1, 0), (1, 0), (-1, 1), (0, 1), (1, 1)]

/-- Componentwise sum of cells. -/
def cadd (a b : Cell) : Cell := (a.1 + b.1, a.2 + b.2)

/-- The 8 neighbors of a cell, in the fixed enumeration order. -/
def neighborsOf (c : Cell) : List Cell := nbrOffsets.map (cadd c)

/-- Two cells are adjacent when the second is one of the 8 neighbors of
the first. -/
def adjacent (a b : Cell) : Prop := b ∈ neighborsOf a

/-- A step is diagonal when both coordinates change. -/
def isDiagStep (a b : Cell) : Bool := decide (a.1 ≠ b.1) && decide (a.2 ≠ b.2)

/-- Modelled from the spec (§4.3): the wavefront step cost from `a` into
`b` is half the sum of the two cells' costs, scaled by 1 for a cardinal
step and by sqrt 2 for a diagonal one; in `Val`'s half-cost units this is
`(cost a + cost b) * scale`. -/
def stepCost (g : CostGrid) (a b : Cell) : Val :=
  ((g.cost a + g.cost b : ℕ) : Val) * (if isDiagStep a b then Zsqrtd.sqrtd else 1)

/-- The solver's working state: tentative integration values (`none` is
the unreachable sentinel) and the set of settled cells. -/
structure SolveState where
  dist : Cell → Option Val
  visited : Cell → Bool

/-- All cells of a chunk, in a fixed row-major enumeration order. -/
def allCells (g : CostGrid) : List Cell :=
  (List.range g.w).flatMap fun x => (List.range g.h).map fun y => (Int.ofNat x, Int.ofNat y)

/-- The wavefront frontier: unsettled cells holding a tentative value. -/
def waveFrontier (g : CostGrid) (s : SolveState) : List Cell :=
  (allCells g).filter fun c => !s.visited c && (s.dist c).isSome

/-- `true` when `b`'s tentative value is strictly below `a`'s; used to
select the next cell, keeping the earlier cell on ties for determinism. -/
def strictlyCloser (s : SolveState) (a b : Cell) : Bool :=
  match s.dist a, s.dist b with
  | some va, some vb => decide (vb < va)
  | _, _ => false

/-- Scan for the frontier cell with the least tentative value; ties and
incomparable entries keep the earlier cell of the fixed enumeration. -/
def selectMinFrom (s : SolveState) : Cell → List Cell → Cell
  | best, [] => best
  | best, c :: rest => selectMinFrom s (if strictlyCloser s best c then c else best) rest

/-- The next cell to settle: the frontier cell with the least tentative
value (first such cell in the fixed order), if any. -/
def selectMin (s : SolveState) : List Cell → Option Cell
  | [] => none
  | c :: rest => some (selectMinFrom s c rest)

/-- Record a tentative integration value for a cell. -/
def setDist (st : SolveState) (c : Cell) (v : Val) : SolveState :=
  { st with dist := fun x => if x = c then some v else st.dist x }

/-- Mark a cell settled. -/
def markVisited (s : SolveState) (n : Cell) : SolveState :=
  { s with visited := fun x => if x = n then true else s.visited x }

/-- Relax the edge from a settled cell with value `vn` into neighbor `c`:
IMPASSABLE or out-of-bounds cells are never expanded into, settled cells
are left alone, and a tentative value is replaced only by a strictly
smaller one. -/
def relaxInto (g : CostGrid) (vn : Val) (n : Cell) (st : SolveState) (c : Cell) : SolveState :=
  if inBounds g c ∧ passable g c ∧ st.visited c = false then
    let newv := vn + stepCost g n c
    match st.dist c with
    | none => setDist st c newv
    | some vc => if newv < vc then setDist st c newv else st
  else st

/-- Settle cell `n` and relax its 8 neighbors in the fixed order. -/
def expand (g : CostGrid) (s : SolveState) (n : Cell) : SolveState :=
  match s.dist n with
  | none => s
  | some vn => (neighborsOf n).foldl (relaxInto g vn n) (markVisited s n)

/-- The wavefront loop: settle the least-valued frontier cell until the
frontier is empty, with enough fuel to settle every cell. -/
def loopN (g : CostGrid) : ℕ → SolveState → SolveState
  | 0, s => s
  | fuel + 1, s =>
    match selectMin s (waveFrontier g s) with
    | none => s
    | some n => loopN g fuel (expand g s n)

/-- A seed of the wavefront: a target cell that is inside the grid and
passable (§4.3 seeds the expansion at the target cells; §7 clamps
invalid target cells before the solve, so IMPASSABLE targets are not
seeded). -/
def isSeed (g : CostGrid) (targets : List Cell) (c : Cell) : Prop :=
  c ∈ targets ∧ inBounds g c ∧ passable g c

instance (g : CostGrid) (targets : List Cell) (c : Cell) :
    Decidable (isSeed g targets c) := by
  unfold isSeed; infer_instance

/-- The initial state: seeds at integration value 0, everything else at
the unreachable sentinel, nothing settled. -/
def initState (g : CostGrid) (targets : List Cell) : SolveState :=
  { dist := fun c => if isSeed g targets c then some 0 else none
    visited := fun _ => false }

/-- Modelled from the spec (§4.3): `Solve(grid, target_cells)`,
multi-source wavefront expansion processed in non-decreasing order of
integration value. -/
def Solve (g : CostGrid) (targets : List Cell) : SolveState :=
  loopN g (g.w * g.h) (initState g targets)

/-- The Integration Field produced by one `Solve` invocation. -/
def integration (g : CostGrid) (targets : List Cell) : Cell → Option Val :=
  (Solve g targets).dist

/-- Scan the neighbor offsets for the one whose integration value is
strictly minimal below the running best, keeping the earlier offset on
ties (fixed enumeration order, §4.3). -/
def flowDirScan (I : Cell → Option Val) (c : Cell) :
    List Cell → Cell → Val → Cell
  | [], best, _ => best
  | o :: rest, best, bv =>
    match I (cadd c o) with
    | some v => if v < bv then flowDirScan I c rest o v else flowDirScan I c rest best bv
    | none => flowDirScan I c rest best bv

/-- Modelled from the spec (§4.3): the Flow Field direction of a cell is
toward the neighbor with strictly minimal integration value (ties broken
by the fixed enumeration order), and the zero "no-path" vector for cells
the wavefront never reached. -/
def FlowField (g : CostGrid) (targets : List Cell) (c : Cell) : Cell :=
  match integration g targets c with
  | none => (0, 0)
  | some vc => flowDirScan (integration g targets) c nbrOffsets (0, 0) vc

/-- What steering produces for one agent in one tick. -/
structure SteerResult where
  vel : ℚ × ℚ
  replan : Bool
deriving DecidableEq

/-- Modelled from the spec (§4.7): per-tick steering from the sampled
flow-field direction; if the sampled direction is the no-path zero
sentinel, the velocity is zero for the tick and the agent's Path Request
is flagged for replanning; otherwise the agent moves along the sampled
direction, scaled by its speed (the avoidance blend does not alter the
sentinel contract). -/
def SampleVelocity (dir : Cell) (maxSpeed : ℚ) : SteerResult :=
  if dir = (0, 0) then ⟨(0, 0), true⟩
  else ⟨(maxSpeed * (dir.1 : ℚ), maxSpeed * (dir.2 : ℚ)), false⟩

/-- C1: `Solve` is a pure, deterministic function of the cost grid and
the target set: two invocations on byte-identical inputs (equal
dimensions, pointwise-equal costs, equal target lists) return identical
Integration Fields and identical Flow Fields; in particular re-invoking
it on an unmodified grid reproduces the same fields bit for bit. -/
theorem C1_solve_deterministic (g1 g2 : CostGrid) (t1 t2 : List Cell)
    (hw : g1.w = g2.w) (hh : g1.h = g2.h) (hc : ∀ c, g1.cost c = g2.cost c)
    (ht : t1 = t2) :
    integration g1 t1 = integration g2 t2 ∧ FlowField g1 t1 = FlowField g2 t2 := by
  have hg : g1 = g2 := by
    obtain ⟨w1, h1, c1⟩ := g1
    obtain ⟨w2, h2, c2⟩ := g2
    simp only at hw hh
    subst hw hh
    have : c1 = c2 := funext hc
    subst this
    rfl
  subst hg ht
  exact ⟨rfl, rfl⟩

/-- Witness for C1 on two syntactically distinct but equal grids. -/
theorem C1_solve_deterministic_witness :
    integration ⟨2, 2, fun _ => 1⟩ [(0, 0)] = integration ⟨2, 2, fun _c => 0 + 1⟩ [(0, 0)] ∧
      FlowField ⟨2, 2, fun _ => 1⟩ [(0, 0)] = FlowField ⟨2, 2, fun _c => 0 + 1⟩ [(0, 0)] :=
  C1_solve_deterministic _ _ _ _ rfl rfl (fun _ => rfl) rfl

/-- Modelled from the spec (§4.4, §5): the state of one cache key as its
atomic `Get` steps observe it; per-key mutation is mutually exclusive, so
a burst of concurrent `Get`s is an arbitrary arrival order of atomic
steps. `cached` holds a completed field's id, `inflight` the id of the
solve in progress, `solveCount` counts Solve invocations started. -/
structure CacheKeyState where
  cached : Option ℕ
  inflight : Option ℕ
  solveCount : ℕ
  nextId : ℕ
deriving DecidableEq

/-- The reference a requester holds after its `Get` returns: either a
cached field or a subscription to the in-flight solve with a given id. -/
inductive FieldRef where
  | ready : ℕ → FieldRef
  | pending : ℕ → FieldRef
deriving DecidableEq

/-- Modelled from the spec (§4.4): one atomic `Get` under the
single-flight contract: a cached entry is returned; otherwise a key with
a solve already in flight attaches the requester to it, and only a key
with no cached entry and no in-flight solve starts a new Solve. -/
def cacheGet (s : CacheKeyState) : CacheKeyState × FieldRef :=
  match s.cached with
  | some f => (s, FieldRef.ready f)
  | none =>
    match s.inflight with
    | some j => (s, FieldRef.pending j)
    | none =>
      ({ s with inflight := some s.nextId, solveCount := s.solveCount + 1,
                nextId := s.nextId + 1 },
       FieldRef.pending s.nextId)

/-- Process a burst of `n` concurrent `Get`s for the key in arrival
order, collecting the reference each requester receives. -/
def cacheGetN : ℕ → CacheKeyState → CacheKeyState × List FieldRef
  | 0, s => (s, [])
  | n + 1, s =>
    let p := cacheGet s
    let q := cacheGetN n p.1
    (q.1, p.2 :: q.2)

/-- A key with no cached entry and no in-flight solve. -/
def emptyKeyState : CacheKeyState := ⟨none, none, 0, 0⟩

theorem cacheGetN_attached (k : ℕ) (s : CacheKeyState) (j : ℕ)
    (hc : s.cached = none) (hf : s.inflight = some j) :
    cacheGetN k s = (s, List.replicate k (FieldRef.pending j)) := by
  induction k with
  | zero => rfl
  | succ m ih =>
    have hget : cacheGet s = (s, FieldRef.pending j) := by
      unfold cacheGet; rw [hc, hf]
    simp [cacheGetN, hget, ih, List.replicate_succ]

/-- C7: when `n` concurrent `Get`s arrive for the same key while no
cached entry exists, exactly one Solve invocation is started; the first
requester starts it and every later one attaches to the same in-flight
computation, so all `n` requesters receive a reference to the same
resulting field. -/
theorem C7_single_flight (n : ℕ) (hn : 1 ≤ n) :
    (cacheGetN n emptyKeyState).1.solveCount = 1 ∧
      (cacheGetN n emptyKeyState).2 = List.replicate n (FieldRef.pending 0) := by
  obtain ⟨m, rfl⟩ : ∃ m, n = m + 1 := ⟨n - 1, by omega⟩
  have hget : cacheGet emptyKeyState =
      (⟨none, some 0, 1, 1⟩, FieldRef.pending 0) := rfl
  have hrest := cacheGetN_attached m ⟨none, some 0, 1, 1⟩ 0 rfl rfl
  constructor
  · show (cacheGetN (m + 1) emptyKeyState).1.solveCount = 1
    simp [cacheGetN, hget, hrest]
  · show (cacheGetN (m + 1) emptyKeyState).2 = _
    simp [cacheGetN, hget, hrest, List.replicate_succ]

/-- Witness for C7 with a burst of three concurrent requesters. -/
theorem C7_single_flight_witness :
    (cacheGetN 3 emptyKeyState).1.solveCount = 1 ∧
      (cacheGetN 3 emptyKeyState).2 = List.replicate 3 (FieldRef.pending 0) :=
  C7_single_flight 3 (by norm_num)

/-- Modelled from the spec (§4.2): a Portal between two horizontally
adjacent chunks: one maximal contiguous run of shared-boundary cells
passable on both sides, recorded as the starting boundary index `lo`,
the run's width `len`, and the crossing cost (mean of the boundary cell
costs of the run, over both sides). -/
structure Portal where
  lo : ℕ
  len : ℕ
  crossCost : ℚ
deriving DecidableEq

/-- Boundary row `y` is passable on both sides: the cell in chunk A's
rightmost column and the cell in chunk B's leftmost column at that row
are both in bounds and passable. -/
def passBoth (gA gB : CostGrid) (y : ℕ) : Bool :=
  decide (inBounds gA ((gA.w : ℤ) - 1, (y : ℤ)) ∧ passable gA ((gA.w : ℤ) - 1, (y : ℤ)))
    && decide (inBounds gB (0, (y : ℤ)) ∧ passable gB (0, (y : ℤ)))

/-- Mean of the boundary cell costs across a run, over both sides. -/
def runCost (gA gB : CostGrid) (lo len : ℕ) : ℚ :=
  (((List.range len).map fun i =>
      gA.cost ((gA.w : ℤ) - 1, ((lo + i : ℕ) : ℤ)) + gB.cost (0, ((lo + i : ℕ) : ℤ))).sum : ℚ)
    / (2 * len)

/-- Scan boundary rows `y, y+1, ..., y+k-1`, grouping consecutive `true`
flags into runs; `acc = some s` records that a run began at row `s` and
is still open. Returns the list of runs as (start, length) pairs. -/
def scanRuns (F : ℕ → Bool) : ℕ → ℕ → Option ℕ → List (ℕ × ℕ)
  | 0, _, none => []
  | 0, y, some s => [(s, y - s)]
  | k + 1, y, none =>
    if F y then scanRuns F k (y + 1) (some y) else scanRuns F k (y + 1) none
  | k + 1, y, some s =>
    if F y then scanRuns F k (y + 1) (some s)
    else (s, y - s) :: scanRuns F k (y + 1) none

/-- Modelled from the spec (§4.2): `BuildPortals(chunkA, chunkB)` scans
the shared boundary, groups the cells passable on both sides into
maximal contiguous runs, and returns one Portal per run, carrying the
run's width and its crossing cost. -/
def BuildPortals (gA gB : CostGrid) : List Portal :=
  (scanRuns (passBoth gA gB) gA.h 0 none).map fun r =>
    ⟨r.1, r.2, runCost gA gB r.1 r.2⟩

/-- The spec's words, stated independently of the scan: `r` is a maximal
contiguous run of the boundary predicate `F` when it is non-empty, `F`
holds throughout it, and it can be extended in neither direction. -/
def MaximalRun (F : ℕ → Bool) (r : ℕ × ℕ) : Prop :=
  1 ≤ r.2 ∧ (∀ i < r.2, F (r.1 + i) = true) ∧
    (r.1 = 0 ∨ F (r.1 - 1) = false) ∧ F (r.1 + r.2) = false

/-- The scan-state invariant: with no open run the previous row (if any)
was impassable; with a run open at `s`, every row from `s` up to the
cursor is passable and the run cannot extend left. -/
def AccInv (F : ℕ → Bool) (y : ℕ) : Option ℕ → Prop
  | none => y = 0 ∨ F (y - 1) = false
  | some s => s < y ∧ (∀ i, s ≤ i → i < y → F i = true) ∧ (s = 0 ∨ F (s - 1) = false)

/-- Which runs the rest of the scan can still emit: any run at or beyond
the cursor, plus the currently open one. -/
def AccWindow (y : ℕ) : Option ℕ → ℕ × ℕ → Prop
  | none, r => y ≤ r.1
  | some s, r => r.1 = s ∨ y + 1 ≤ r.1

theorem scanRuns_mem (F : ℕ → Bool) :
    ∀ (k y : ℕ) (acc : Option ℕ) (r : ℕ × ℕ),
      F (y + k) = false → AccInv F y acc →
      (r ∈ scanRuns F k y acc ↔
        MaximalRun F r ∧ AccWindow y acc r ∧ r.1 + r.2 ≤ y + k) := by
  intro k
  induction k with
  | zero =>
    intro y acc r hend hinv
    rw [Nat.add_zero] at hend
    cases acc with
    | none =>
      simp only [scanRuns, List.not_mem_nil, false_iff]
      rintro ⟨hmax, hwin, hle⟩
      simp only [AccWindow] at hwin
      have h1 := hmax.1
      omega
    | some s =>
      simp only [AccInv] at hinv
      obtain ⟨hsy, hall, hstart⟩ := hinv
      simp only [scanRuns, List.mem_singleton]
      constructor
      · rintro rfl
        refine ⟨⟨by omega, ?_, hstart, ?_⟩, Or.inl rfl, by omega⟩
        · intro i hi
          exact hall (s + i) (by omega) (by omega)
        · have : s + (y - s) = y := by omega
          rw [this]; exact hend
      · rintro ⟨hmax, hwin, hle⟩
        obtain ⟨hlen, hrun, _, hstop⟩ := hmax
        simp only [AccWindow] at hwin
        rcases hwin with h1 | h1
        · have hge : y ≤ r.1 + r.2 := by
            by_contra hlt
            push_neg at hlt
            have := hall (r.1 + r.2) (by omega) (by omega)
            rw [this] at hstop; exact absurd hstop (by simp)
          have : r.2 = y - s := by omega
          obtain ⟨a, l⟩ := r
          simp only at h1 this
          rw [h1, this]
        · omega
  | succ k ih =>
    intro y acc r hend hinv
    have hend' : F (y + 1 + k) = false := by
      have : y + 1 + k = y + (k + 1) := by omega
      rw [this]; exact hend
    cases acc with
    | none =>
      simp only [AccInv] at hinv
      by_cases hFy : F y = true
      · have hnext : AccInv F (y + 1) (some y) := by
          refine ⟨by omega, ?_, hinv⟩
          intro i h1 h2
          have : i = y := by omega
          rw [this]; exact hFy
        have := ih (y + 1) (some y) r hend' hnext
        simp only [scanRuns, hFy, if_true, this, AccWindow]
        constructor
        · rintro ⟨hmax, hwin, hle⟩
          exact ⟨hmax, by omega, by omega⟩
        · rintro ⟨hmax, hwin, hle⟩
          refine ⟨hmax, ?_, by omega⟩
          rcases Nat.lt_or_ge r.1 (y + 2) with h1 | h1
          · left
            rcases hmax.2.2.1 with h2 | h2
            · omega
            · by_contra hne
              have hr1 : r.1 = y + 1 := by omega
              rw [hr1] at h2
              simp only [Nat.add_sub_cancel] at h2
              rw [hFy] at h2; exact absurd h2 (by simp)
          · right; omega
      · have hFy' : F y = false := by
          cases h : F y
          · rfl
          · exact absurd h hFy
        have hnext : AccInv F (y + 1) none := by
          right; simpa using hFy'
        have := ih (y + 1) none r hend' hnext
        simp only [scanRuns, hFy', Bool.false_eq_true, if_false, this, AccWindow]
        constructor
        · rintro ⟨hmax, hwin, hle⟩
          exact ⟨hmax, by omega, by omega⟩
        · rintro ⟨hmax, hwin, hle⟩
          refine ⟨hmax, ?_, by omega⟩
          rcases Nat.eq_or_lt_of_le hwin with h1 | h1
          · exfalso
            have := hmax.2.1 0 (by have := hmax.1; omega)
            rw [Nat.add_zero, ← h1] at this
            rw [hFy'] at this; exact absurd this (by simp)
          · omega
    | some s =>
      simp only [AccInv] at hinv
      obtain ⟨hsy, hall, hstart⟩ := hinv
      by_cases hFy : F y = true
      · have hnext : AccInv F (y + 1) (some s) := by
          refine ⟨by omega, ?_, hstart⟩
          intro i h1 h2
          rcases Nat.lt_or_ge i y with h3 | h3
          · exact hall i h1 h3
          · have : i = y := by omega
            rw [this]; exact hFy
        have := ih (y + 1) (some s) r hend' hnext
        simp only [scanRuns, hFy, if_true, this, AccWindow]
        constructor
        · rintro ⟨hmax, hwin, hle⟩
          rcases hwin with h1 | h1
          · exact ⟨hmax, Or.inl h1, by omega⟩
          · exact ⟨hmax, Or.inr (by omega), by omega⟩
        · rintro ⟨hmax, hwin, hle⟩
          refine ⟨hmax, ?_, by omega⟩
          rcases hwin with h1 | h1
          · exact Or.inl h1
          · rcases Nat.eq_or_lt_of_le h1 with h2 | h2
            · exfalso
              rcases hmax.2.2.1 with h3 | h3
              · omega
              · rw [← h2] at h3
                simp only [Nat.add_sub_cancel] at h3
                rw [hFy] at h3; exact absurd h3 (by simp)
            · exact Or.inr (by omega)
      · have hFy' : F y = false := by
          cases h : F y
          · rfl
          · exact absurd h hFy
        have hnext : AccInv F (y + 1) none := by
          right; simpa using hFy'
        have hrec := ih (y + 1) none r hend' hnext
        simp only [scanRuns, hFy', Bool.false_eq_true, if_false, List.mem_cons, hrec,
          AccWindow]
        constructor
        · rintro (rfl | ⟨hmax, hwin, hle⟩)
          · refine ⟨⟨by omega, ?_, hstart, ?_⟩, Or.inl rfl, by omega⟩
            · intro i hi
              exact hall (s + i) (by omega) (by omega)
            · have : s + (y - s) = y := by omega
              rw [this]; exact hFy'
          · exact ⟨hmax, Or.inr (by omega), by omega⟩
        · rintro ⟨hmax, hwin, hle⟩
          rcases hwin with h1 | h1
          · left
            obtain ⟨hlen, hrun, _, hstop⟩ := hmax
            have hge : y ≤ r.1 + r.2 := by
              by_contra hlt
              push_neg at hlt
              have := hall (r.1 + r.2) (by omega) (by omega)
              rw [this] at hstop; exact absurd hstop (by simp)
            have hle2 : r.1 + r.2 ≤ y := by
              by_contra hgt
              push_neg at hgt
              have := hrun (y - r.1) (by omega)
              have h2 : r.1 + (y - r.1) = y := by omega
              rw [h2] at this
              rw [hFy'] at this; exact absurd this (by simp)
            have : r.2 = y - s := by omega
            obtain ⟨a, l⟩ := r
            simp only at h1 this
            rw [h1, this]
          · right
            exact ⟨hmax, by omega, by omega⟩

theorem scanRuns_pairwise (F : ℕ → Bool) :
    ∀ (k y : ℕ) (acc : Option ℕ), F (y + k) = false → AccInv F y acc →
      (scanRuns F k y acc).Pairwise (fun a b => a.1 < b.1) := by
  intro k
  induction k with
  | zero =>
    intro y acc _ _
    cases acc <;> simp [scanRuns]
  | succ k ih =>
    intro y acc hend hinv
    have hend' : F (y + 1 + k) = false := by
      have : y + 1 + k = y + (k + 1) := by omega
      rw [this]; exact hend
    cases acc with
    | none =>
      simp only [AccInv] at hinv
      by_cases hFy : F y = true
      · have hnext : AccInv F (y + 1) (some y) := by
          refine ⟨by omega, ?_, hinv⟩
          intro i h1 h2
          have : i = y := by omega
          rw [this]; exact hFy
        simp only [scanRuns, hFy, if_true]
        exact ih (y + 1) (some y) hend' hnext
      · have hFy' : F y = false := by
          cases h : F y
          · rfl
          · exact absurd h hFy
        have hnext : AccInv F (y + 1) none := by
          right; simpa using hFy'
        simp only [scanRuns, hFy', Bool.false_eq_true, if_false]
        exact ih (y + 1) none hend' hnext
    | some s =>
      simp only [AccInv] at hinv
      obtain ⟨hsy, hall, hstart⟩ := hinv
      by_cases hFy : F y = true
      · have hnext : AccInv F (y + 1) (some s) := by
          refine ⟨by omega, ?_, hstart⟩
          intro i h1 h2
          rcases Nat.lt_or_ge i y with h3 | h3
          · exact hall i h1 h3
          · have : i = y := by omega
            rw [this]; exact hFy
        simp only [scanRuns, hFy, if_true]
        exact ih (y + 1) (some s) hend' hnext
      · have hFy' : F y = false := by
          cases h : F y
          · rfl
          · exact absurd h hFy
        have hnext : AccInv F (y + 1) none := by
          right; simpa using hFy'
        simp only [scanRuns, hFy', Bool.false_eq_true, if_false, List.pairwise_cons]
        constructor
        · intro b hb
          have hmem := (scanRuns_mem F k (y + 1) none b hend' hnext).mp hb
          simp only [AccWindow] at hmem
          have := hmem.2.1
          show s < b.1
          omega
        · exact ih (y + 1) none hend' hnext

theorem passBoth_high (gA gB : CostGrid) (y : ℕ) (hy : gA.h ≤ y) :
    passBoth gA gB y = false := by
  unfold passBoth
  have h : ¬ (inBounds gA ((gA.w : ℤ) - 1, (y : ℤ)) ∧
      passable gA ((gA.w : ℤ) - 1, (y : ℤ))) := by
    rintro ⟨⟨_, _, _, h4⟩, _⟩
    simp only at h4
    have : y < gA.h := by exact_mod_cast h4
    omega
  simp [h]

theorem passBoth_lt_h (gA gB : CostGrid) (y : ℕ)
    (hy : passBoth gA gB y = true) : y < gA.h := by
  by_contra h
  push_neg at h
  rw [passBoth_high gA gB y h] at hy
  exact absurd hy (by simp)

/-- The C5 scenario's left chunk: a 4x4 grid whose rightmost boundary
column is passable at rows 0, 2 and 3 but IMPASSABLE at row 1, giving
two disjoint passable boundary runs of lengths 1 and 2. -/
def gA4 : CostGrid := ⟨4, 4, fun c => if c.1 = 3 ∧ c.2 = 1 then IMPASSABLE else 1⟩

/-- The C5 scenario's right chunk: a uniformly passable 4x4 grid. -/
def gB4 : CostGrid := ⟨4, 4, fun _ => 1⟩

/-- C5: `BuildPortals` returns exactly one Portal per maximal contiguous
run of shared-boundary cells passable on both sides: a portal's range is
a maximal run and carries the run's crossing cost, every maximal run is
represented, the returned portals have strictly increasing (hence
pairwise distinct) starts, and on the concrete two-chunk scenario whose
boundary has two disjoint passable runs of lengths 1 and 2 it yields
exactly 2 portal edges, not 1. -/
theorem C5_buildPortals_maximal_runs (gA gB : CostGrid) (p : Portal) :
    (p ∈ BuildPortals gA gB ↔
      MaximalRun (passBoth gA gB) (p.lo, p.len) ∧
        p.crossCost = runCost gA gB p.lo p.len) ∧
      (BuildPortals gA gB).Pairwise (fun a b => a.lo < b.lo) ∧
      (BuildPortals gA4 gB4).length = 2 := by
  have hend : passBoth gA gB (0 + gA.h) = false :=
    passBoth_high gA gB _ (by omega)
  have hinv : AccInv (passBoth gA gB) 0 none := Or.inl rfl
  refine ⟨?_, ?_, ?_⟩
  · unfold BuildPortals
    rw [List.mem_map]
    constructor
    · rintro ⟨r, hr, rfl⟩
      have hmem := (scanRuns_mem _ _ _ _ r hend hinv).mp hr
      exact ⟨hmem.1, rfl⟩
    · rintro ⟨hmax, hcost⟩
      refine ⟨(p.lo, p.len), ?_, ?_⟩
      · apply (scanRuns_mem _ _ _ _ _ hend hinv).mpr
        refine ⟨hmax, Nat.zero_le _, ?_⟩
        have h1 := hmax.2.1 (p.len - 1) (by have := hmax.1; omega)
        have h2 : p.lo + (p.len - 1) < gA.h := passBoth_lt_h gA gB _ h1
        have := hmax.1
        omega
      · obtain ⟨lo, len, cc⟩ := p
        have hcc : cc = runCost gA gB lo len := hcost
        subst hcc
        rfl
  · unfold BuildPortals
    rw [List.pairwise_map]
    exact scanRuns_pairwise _ _ _ _ hend hinv
  · rfl

/-- The cost of walking a list of cells, edge by edge. -/
def pathCost (g : CostGrid) : List Cell → Val
  | [] => 0
  | [_] => 0
  | a :: b :: rest => stepCost g a b + pathCost g (b :: rest)

/-- A walkable path: every cell is in bounds and passable, and
consecutive cells are 8-adjacent. -/
def ValidPath (g : CostGrid) (p : List Cell) : Prop :=
  (∀ c ∈ p, inBounds g c ∧ passable g c) ∧ p.Chain' adjacent

/-- A path from some seed of the target set to `c`. -/
def SeedPath (g : CostGrid) (targets : List Cell) (p : List Cell) (c : Cell) : Prop :=
  ValidPath g p ∧ (∃ s0, p.head? = some s0 ∧ isSeed g targets s0) ∧ p.getLast? = some c

theorem stepCost_nonneg (g : CostGrid) (a b : Cell) : 0 ≤ stepCost g a b := by
  unfold stepCost
  apply mul_nonneg
  · exact_mod_cast Nat.zero_le _
  · split
    · exact le_of_lt (by decide)
    · exact zero_le_one

theorem stepCost_pos (g : CostGrid) (hwf : WellFormed g) (a b : Cell) :
    0 < stepCost g a b := by
  unfold stepCost
  apply mul_pos
  · have h1 := (hwf a).1
    have h2 : 0 < g.cost a + g.cost b := by omega
    exact_mod_cast h2
  · split
    · decide
    · exact zero_lt_one

theorem isDiagStep_symm (a b : Cell) : isDiagStep a b = isDiagStep b a := by
  unfold isDiagStep
  by_cases h1 : a.1 = b.1 <;> by_cases h2 : a.2 = b.2 <;>
    simp [h1, h2, Ne.symm, eq_comm]

theorem stepCost_symm (g : CostGrid) (a b : Cell) :
    stepCost g a b = stepCost g b a := by
  unfold stepCost
  rw [Nat.add_comm, isDiagStep_symm]

theorem adjacent_iff (a b : Cell) :
    adjacent a b ↔ ∃ o ∈ nbrOffsets, b = cadd a o := by
  unfold adjacent neighborsOf
  simp [List.mem_map, eq_comm]

theorem adjacent_symm {a b : Cell} (h : adjacent a b) : adjacent b a := by
  rw [adjacent_iff] at h ⊢
  obtain ⟨o, ho, rfl⟩ := h
  refine ⟨(-o.1, -o.2), ?_, ?_⟩
  · revert ho
    have : ∀ o ∈ nbrOffsets, ((-o.1, -o.2) : Cell) ∈ nbrOffsets := by decide
    exact this o
  · unfold cadd
    simp

theorem adjacent_shift {a b : Cell} (w : ℤ) (h : adjacent a b) :
    adjacent (a.1 + w, a.2) (b.1 + w, b.2) := by
  rw [adjacent_iff] at h ⊢
  obtain ⟨o, ho, rfl⟩ := h
  exact ⟨o, ho, by unfold cadd; simp; ring⟩

theorem pathCost_cons_cons (g : CostGrid) (a b : Cell) (t : List Cell) :
    pathCost g (a :: b :: t) = stepCost g a b + pathCost g (b :: t) := rfl

theorem pathCost_append (g : CostGrid) (p1 p2 : List Cell) (a b : Cell)
    (h1 : p1.getLast? = some a) (h2 : p2.head? = some b) :
    pathCost g (p1 ++ p2) = pathCost g p1 + stepCost g a b + pathCost g p2 := by
  induction p1 with
  | nil => simp at h1
  | cons x rest ih =>
    cases rest with
    | nil =>
      have hx : x = a := by simpa using h1
      cases p2 with
      | nil => simp at h2
      | cons y q =>
        have hy : y = b := by simpa using h2
        rw [← hx, ← hy]
        show pathCost g (x :: y :: q) = pathCost g [x] + stepCost g x y + pathCost g (y :: q)
        rw [pathCost_cons_cons]
        show _ = 0 + _ + _
        ring
    | cons x2 rest2 =>
      have h1' : (x2 :: rest2).getLast? = some a := by
        rwa [List.getLast?_cons_cons] at h1
      have hih := ih h1'
      show pathCost g (x :: x2 :: (rest2 ++ p2)) = _
      rw [pathCost_cons_cons]
      have : x2 :: (rest2 ++ p2) = (x2 :: rest2) ++ p2 := rfl
      rw [this, hih, pathCost_cons_cons]
      ring

theorem pathCost_congr (g1 g2 : CostGrid) (p : List Cell)
    (h : ∀ c ∈ p, g1.cost c = g2.cost c) : pathCost g1 p = pathCost g2 p := by
  induction p with
  | nil => rfl
  | cons a t ih =>
    cases t with
    | nil => rfl
    | cons b t2 =>
      have hab : stepCost g1 a b = stepCost g2 a b := by
        unfold stepCost
        rw [h a (by simp), h b (by simp)]
      rw [pathCost_cons_cons, pathCost_cons_cons, hab,
        ih (fun c hc => h c (by simp only [List.mem_cons] at hc ⊢; tauto))]

/-- Translate a cell to the right by `w` columns. -/
def shiftCell (w : ℤ) (c : Cell) : Cell := (c.1 + w, c.2)

theorem stepCost_shift (g1 g2 : CostGrid) (w : ℤ) (a b : Cell)
    (ha : g2.cost (shiftCell w a) = g1.cost a)
    (hb : g2.cost (shiftCell w b) = g1.cost b) :
    stepCost g2 (shiftCell w a) (shiftCell w b) = stepCost g1 a b := by
  unfold stepCost
  rw [ha, hb]
  have : isDiagStep (shiftCell w a) (shiftCell w b) = isDiagStep a b := by
    unfold isDiagStep shiftCell
    simp
  rw [this]


theorem pathCost_map_shift (g1 g2 : CostGrid) (w : ℤ) (p : List Cell)
    (h : ∀ c ∈ p, g2.cost (shiftCell w c) = g1.cost c) :
    pathCost g2 (p.map (shiftCell w)) = pathCost g1 p := by
  induction p with
  | nil => rfl
  | cons a t ih =>
    cases t with
    | nil => rfl
    | cons b t2 =>
      have hmap : (a :: b :: t2).map (shiftCell w) =
          shiftCell w a :: shiftCell w b :: t2.map (shiftCell w) := rfl
      rw [hmap, pathCost_cons_cons, pathCost_cons_cons,
        stepCost_shift g1 g2 w a b (h a (by simp)) (h b (by simp))]
      have hih := ih (fun c hc => h c (by simp only [List.mem_cons] at hc ⊢; tauto))
      have hmap2 : (b :: t2).map (shiftCell w) =
          shiftCell w b :: t2.map (shiftCell w) := rfl
      rw [hmap2] at hih
      rw [hih]

theorem mem_allCells (g : CostGrid) (c : Cell) : c ∈ allCells g ↔ inBounds g c := by
  unfold allCells inBounds
  rw [List.mem_flatMap]
  constructor
  · rintro ⟨x, hx, hc⟩
    rw [List.mem_map] at hc
    obtain ⟨y, hy, rfl⟩ := hc
    rw [List.mem_range] at hx hy
    refine ⟨Int.ofNat_nonneg x, ?_, Int.ofNat_nonneg y, ?_⟩
    · exact Int.ofNat_lt.mpr hx
    · exact Int.ofNat_lt.mpr hy
  · rintro ⟨h1, h2, h3, h4⟩
    refine ⟨c.1.toNat, ?_, ?_⟩
    · rw [List.mem_range]; omega
    · rw [List.mem_map]
      refine ⟨c.2.toNat, ?_, ?_⟩
      · rw [List.mem_range]; omega
      · have e1 : (Int.ofNat c.1.toNat) = c.1 := Int.toNat_of_nonneg h1
        have e2 : (Int.ofNat c.2.toNat) = c.2 := Int.toNat_of_nonneg h3
        rw [e1, e2]

theorem mem_waveFrontier (g : CostGrid) (s : SolveState) (c : Cell) :
    c ∈ waveFrontier g s ↔
      inBounds g c ∧ s.visited c = false ∧ (s.dist c).isSome := by
  unfold waveFrontier
  rw [List.mem_filter, mem_allCells]
  simp [Bool.and_eq_true]

theorem selectMinFrom_cons (s : SolveState) (best c : Cell) (rest : List Cell) :
    selectMinFrom s best (c :: rest) =
      selectMinFrom s (if strictlyCloser s best c then c else best) rest := rfl

theorem strictlyCloser_true (s : SolveState) (a b : Cell)
    (h : strictlyCloser s a b = true) :
    ∃ va vb, s.dist a = some va ∧ s.dist b = some vb ∧ vb < va := by
  cases ha : s.dist a <;> cases hb : s.dist b <;>
    simp only [strictlyCloser, ha, hb, decide_eq_true_eq] at h
  · exact absurd h (by simp)
  · exact absurd h (by simp)
  · exact absurd h (by simp)
  · exact ⟨_, _, rfl, rfl, h⟩

theorem strictlyCloser_false_le (s : SolveState) (a b : Cell) (va vb : Val)
    (ha : s.dist a = some va) (hb : s.dist b = some vb)
    (h : strictlyCloser s a b = false) : va ≤ vb := by
  simp only [strictlyCloser, ha, hb, decide_eq_false_iff_not] at h
  exact le_of_not_lt h

theorem selectMinFrom_none (s : SolveState) (l : List Cell) (best : Cell)
    (hb : s.dist best = none) : selectMinFrom s best l = best := by
  induction l with
  | nil => rfl
  | cons c rest ih =>
    rw [selectMinFrom_cons]
    have hf : strictlyCloser s best c = false := by
      simp only [strictlyCloser, hb]
    rw [hf]
    simpa using ih

theorem selectMinFrom_spec (s : SolveState) :
    ∀ (l : List Cell) (best : Cell),
      (selectMinFrom s best l = best ∨ selectMinFrom s best l ∈ l) ∧
        (∀ vb vr, s.dist best = some vb →
          s.dist (selectMinFrom s best l) = some vr → vr ≤ vb) ∧
        (∀ f ∈ l, ∀ vf vr, s.dist f = some vf →
          s.dist (selectMinFrom s best l) = some vr → vr ≤ vf) := by
  intro l
  induction l with
  | nil =>
    intro best
    refine ⟨Or.inl rfl, ?_, ?_⟩
    · intro vb vr h1 h2
      have he : selectMinFrom s best [] = best := rfl
      rw [he, h1] at h2
      injection h2 with h
      exact le_of_eq h.symm
    · intro f hf
      exact absurd hf (List.not_mem_nil f)
  | cons c rest ih =>
    intro best
    rw [selectMinFrom_cons]
    by_cases hsc : strictlyCloser s best c = true
    · rw [if_pos hsc]
      obtain ⟨ihmem, ihbest, ihrest⟩ := ih c
      obtain ⟨vb0, vc0, hb0, hc0, hlt0⟩ := strictlyCloser_true s best c hsc
      refine ⟨?_, ?_, ?_⟩
      · rcases ihmem with h | h
        · right; rw [h]; exact List.mem_cons_self c rest
        · right; exact List.mem_cons_of_mem c h
      · intro vb vr h1 h2
        have hvb : vb = vb0 := Option.some.inj (h1.symm.trans hb0)
        subst hvb
        exact le_of_lt (lt_of_le_of_lt (ihbest vc0 vr hc0 h2) hlt0)
      · intro f hf vf vr h1 h2
        rcases List.mem_cons.mp hf with rfl | hf'
        · exact ihbest vf vr h1 h2
        · exact ihrest f hf' vf vr h1 h2
    · rw [if_neg hsc]
      obtain ⟨ihmem, ihbest, ihrest⟩ := ih best
      refine ⟨?_, ihbest, ?_⟩
      · rcases ihmem with h | h
        · exact Or.inl h
        · right; exact List.mem_cons_of_mem c h
      · intro f hf vf vr h1 h2
        rcases List.mem_cons.mp hf with rfl | hf'
        · cases hb : s.dist best with
          | none =>
            exfalso
            rw [selectMinFrom_none s rest best hb, hb] at h2
            exact Option.noConfusion h2
          | some vb =>
            have hsc2 : strictlyCloser s best f = false := by
              cases hx : strictlyCloser s best f
              · rfl
              · exact absurd hx hsc
            have hle : vb ≤ vf := strictlyCloser_false_le s best f vb vf hb h1 hsc2
            exact le_trans (ihbest vb vr hb h2) hle
        · exact ihrest f hf' vf vr h1 h2

theorem selectMin_mem (s : SolveState) (l : List Cell) (n : Cell)
    (h : selectMin s l = some n) : n ∈ l := by
  cases l with
  | nil => exact absurd h (by simp [selectMin])
  | cons c rest =>
    have hn : n = selectMinFrom s c rest := by
      have : selectMin s (c :: rest) = some (selectMinFrom s c rest) := rfl
      rw [this] at h
      injection h with h
      exact h.symm
    subst hn
    rcases (selectMinFrom_spec s rest c).1 with h | h
    · rw [h]; exact List.mem_cons_self c rest
    · exact List.mem_cons_of_mem c h

theorem selectMin_le (s : SolveState) (l : List Cell) (n : Cell)
    (h : selectMin s l = some n) :
    ∀ f ∈ l, ∀ vf vn, s.dist f = some vf → s.dist n = some vn → vn ≤ vf := by
  cases l with
  | nil => exact absurd h (by simp [selectMin])
  | cons c rest =>
    have hn : n = selectMinFrom s c rest := by
      have : selectMin s (c :: rest) = some (selectMinFrom s c rest) := rfl
      rw [this] at h
      injection h with h
      exact h.symm
    subst hn
    intro f hf vf vn h1 h2
    obtain ⟨_, ihbest, ihrest⟩ := selectMinFrom_spec s rest c
    rcases List.mem_cons.mp hf with rfl | hf'
    · exact ihbest vf vn h1 h2
    · exact ihrest f hf' vf vn h1 h2

theorem selectMin_eq_none (s : SolveState) (l : List Cell)
    (h : selectMin s l = none) : l = [] := by
  cases l with
  | nil => rfl
  | cons c rest => exact absurd h (by simp [selectMin])

theorem setDist_visited (st : SolveState) (c : Cell) (v : Val) :
    (setDist st c v).visited = st.visited := rfl

theorem setDist_dist_eq (st : SolveState) (c : Cell) (v : Val) :
    (setDist st c v).dist c = some v := by
  unfold setDist; simp

theorem setDist_dist_ne (st : SolveState) (c : Cell) (v : Val) (x : Cell)
    (h : x ≠ c) : (setDist st c v).dist x = st.dist x := by
  unfold setDist; simp [h]

theorem markVisited_dist (s : SolveState) (n : Cell) :
    (markVisited s n).dist = s.dist := rfl

theorem markVisited_self (s : SolveState) (n : Cell) :
    (markVisited s n).visited n = true := by
  unfold markVisited; simp

theorem markVisited_cases (s : SolveState) (n x : Cell) :
    (markVisited s n).visited x = true ↔ x = n ∨ s.visited x = true := by
  unfold markVisited
  by_cases h : x = n <;> simp [h]

theorem relaxInto_visited (g : CostGrid) (vn : Val) (n : Cell) (st : SolveState)
    (c : Cell) : (relaxInto g vn n st c).visited = st.visited := by
  unfold relaxInto
  split
  · dsimp only
    split
    · rfl
    · split <;> rfl
  · rfl

theorem relaxInto_dist_cases (g : CostGrid) (vn : Val) (n : Cell)
    (st : SolveState) (c x : Cell) :
    (relaxInto g vn n st c).dist x = st.dist x ∨
      (x = c ∧ inBounds g c ∧ passable g c ∧ st.visited c = false ∧
        (relaxInto g vn n st c).dist x = some (vn + stepCost g n c) ∧
        (st.dist c = none ∨ ∃ vc, st.dist c = some vc ∧ vn + stepCost g n c < vc)) := by
  unfold relaxInto
  split
  · rename_i hcond
    obtain ⟨hib, hpa, hnv⟩ := hcond
    dsimp only
    split
    · rename_i hd
      by_cases hx : x = c
      · subst hx
        exact Or.inr ⟨rfl, hib, hpa, hnv, setDist_dist_eq _ _ _, Or.inl hd⟩
      · exact Or.inl (setDist_dist_ne _ _ _ _ hx)
    · rename_i vc hd
      split
      · rename_i hlt
        by_cases hx : x = c
        · subst hx
          exact Or.inr ⟨rfl, hib, hpa, hnv, setDist_dist_eq _ _ _, Or.inr ⟨vc, hd, hlt⟩⟩
        · exact Or.inl (setDist_dist_ne _ _ _ _ hx)
      · exact Or.inl rfl
  · exact Or.inl rfl

theorem relaxInto_bound (g : CostGrid) (vn : Val) (n : Cell) (st : SolveState)
    (c : Cell) (hib : inBounds g c) (hpa : passable g c)
    (hnv : st.visited c = false) :
    ∃ vc, (relaxInto g vn n st c).dist c = some vc ∧ vc ≤ vn + stepCost g n c := by
  unfold relaxInto
  rw [if_pos (show inBounds g c ∧ passable g c ∧ st.visited c = false from ⟨hib, hpa, hnv⟩)]
  dsimp only
  split
  · exact ⟨_, setDist_dist_eq _ _ _, le_refl _⟩
  · rename_i vc hd
    split
    · exact ⟨_, setDist_dist_eq _ _ _, le_refl _⟩
    · rename_i hnlt
      exact ⟨vc, hd, le_of_not_lt hnlt⟩

theorem relaxInto_mono (g : CostGrid) (vn : Val) (n : Cell) (st : SolveState)
    (c x : Cell) (v : Val) (h : st.dist x = some v) :
    ∃ v', (relaxInto g vn n st c).dist x = some v' ∧ v' ≤ v := by
  rcases relaxInto_dist_cases g vn n st c x with hc | ⟨rfl, _, _, _, hnew, hold⟩
  · exact ⟨v, by rw [hc, h], le_refl v⟩
  · rcases hold with h0 | ⟨vc, hvc, hlt⟩
    · rw [h] at h0; exact Option.noConfusion h0
    · have hv : v = vc := Option.some.inj (h.symm.trans hvc)
      subst hv
      exact ⟨_, hnew, le_of_lt hlt⟩

theorem relaxInto_dist_of_visited (g : CostGrid) (vn : Val) (n : Cell)
    (st : SolveState) (c x : Cell) (h : st.visited x = true) :
    (relaxInto g vn n st c).dist x = st.dist x := by
  rcases relaxInto_dist_cases g vn n st c x with hc | ⟨rfl, _, _, hnv, _, _⟩
  · exact hc
  · rw [h] at hnv; exact Bool.noConfusion hnv

theorem foldRelax_visited (g : CostGrid) (vn : Val) (n : Cell) :
    ∀ (l : List Cell) (st : SolveState),
      (l.foldl (relaxInto g vn n) st).visited = st.visited := by
  intro l
  induction l with
  | nil => intro st; rfl
  | cons c t ih =>
    intro st
    rw [List.foldl_cons, ih, relaxInto_visited]

theorem foldRelax_mono (g : CostGrid) (vn : Val) (n : Cell) :
    ∀ (l : List Cell) (st : SolveState) (x : Cell) (v : Val),
      st.dist x = some v →
      ∃ v', (l.foldl (relaxInto g vn n) st).dist x = some v' ∧ v' ≤ v := by
  intro l
  induction l with
  | nil => intro st x v h; exact ⟨v, h, le_refl v⟩
  | cons c t ih =>
    intro st x v h
    obtain ⟨v1, h1, hle1⟩ := relaxInto_mono g vn n st c x v h
    obtain ⟨v2, h2, hle2⟩ := ih (relaxInto g vn n st c) x v1 h1
    exact ⟨v2, h2, le_trans hle2 hle1⟩

theorem foldRelax_cases (g : CostGrid) (vn : Val) (n : Cell) :
    ∀ (l : List Cell) (st : SolveState) (x : Cell) (v : Val),
      (l.foldl (relaxInto g vn n) st).dist x = some v →
      st.dist x = some v ∨
        (x ∈ l ∧ inBounds g x ∧ passable g x ∧ st.visited x = false ∧
          v = vn + stepCost g n x) := by
  intro l
  induction l with
  | nil => intro st x v h; exact Or.inl h
  | cons c t ih =>
    intro st x v h
    rcases ih (relaxInto g vn n st c) x v h with hmid | ⟨hx, hib, hpa, hnv, hv⟩
    · rcases relaxInto_dist_cases g vn n st c x with hc | ⟨rfl, hib, hpa, hnv, hnew, _⟩
      · exact Or.inl (by rw [← hc]; exact hmid)
      · have : v = vn + stepCost g n x := Option.some.inj (hmid.symm.trans hnew)
        exact Or.inr ⟨List.mem_cons_self x t, hib, hpa, hnv, this⟩
    · rw [relaxInto_visited] at hnv
      exact Or.inr ⟨List.mem_cons_of_mem c hx, hib, hpa, hnv, hv⟩

theorem foldRelax_dist_of_visited (g : CostGrid) (vn : Val) (n : Cell) :
    ∀ (l : List Cell) (st : SolveState) (x : Cell), st.visited x = true →
      (l.foldl (relaxInto g vn n) st).dist x = st.dist x := by
  intro l
  induction l with
  | nil => intro st x _; rfl
  | cons c t ih =>
    intro st x h
    rw [List.foldl_cons, ih (relaxInto g vn n st c) x (by rw [relaxInto_visited]; exact h),
      relaxInto_dist_of_visited g vn n st c x h]

theorem foldRelax_bound (g : CostGrid) (vn : Val) (n : Cell) :
    ∀ (l : List Cell) (st : SolveState) (c : Cell),
      c ∈ l → inBounds g c → passable g c → st.visited c = false →
      ∃ vc, (l.foldl (relaxInto g vn n) st).dist c = some vc ∧
        vc ≤ vn + stepCost g n c := by
  intro l
  induction l with
  | nil => intro st c hc; exact absurd hc (List.not_mem_nil c)
  | cons a t ih =>
    intro st c hc hib hpa hnv
    rcases List.mem_cons.mp hc with rfl | hc'
    · obtain ⟨v1, h1, hle1⟩ := relaxInto_bound g vn n st c hib hpa hnv
      obtain ⟨v2, h2, hle2⟩ := foldRelax_mono g vn n t (relaxInto g vn n st c) c v1 h1
      exact ⟨v2, h2, le_trans hle2 hle1⟩
    · exact ih (relaxInto g vn n st a) c hc' hib hpa
        (by rw [relaxInto_visited]; exact hnv)

theorem adjacent_irrefl (a : Cell) : ¬ adjacent a a := by
  rw [adjacent_iff]
  rintro ⟨⟨o1, o2⟩, ho, hoa⟩
  have h1 : a.1 = a.1 + o1 := congrArg Prod.fst hoa
  have h2 : a.2 = a.2 + o2 := congrArg Prod.snd hoa
  have ho1 : o1 = 0 := by omega
  have ho2 : o2 = 0 := by omega
  subst ho1 ho2
  revert ho
  decide

/-- The wavefront loop invariant: tentative values live on in-bounds
passable cells only, settled cells hold values, all values are
non-negative, seeds stay at 0, every value is witnessed by an expansion
edge from a settled neighbor and by an actual seed path of that exact
cost, settled cells have relaxed all their neighbors, and settled values
never exceed unsettled ones (cells are settled in non-decreasing value
order). -/
structure SolveInv (g : CostGrid) (targets : List Cell) (s : SolveState) : Prop where
  dom : ∀ c, s.dist c ≠ none → inBounds g c ∧ passable g c
  visFin : ∀ c, s.visited c = true → s.dist c ≠ none
  nonneg : ∀ c v, s.dist c = some v → 0 ≤ v
  seed0 : ∀ c, isSeed g targets c → s.dist c = some 0
  parent : ∀ c v, s.dist c = some v → isSeed g targets c ∨
    ∃ m vm, adjacent m c ∧ s.visited m = true ∧ s.dist m = some vm ∧
      v = vm + stepCost g m c
  pathwit : ∀ c v, s.dist c = some v →
    ∃ p, SeedPath g targets p c ∧ pathCost g p = v
  relaxed : ∀ m vm, s.visited m = true → s.dist m = some vm →
    ∀ c, adjacent m c → inBounds g c → passable g c →
      ∃ vc, s.dist c = some vc ∧ vc ≤ vm + stepCost g m c
  popMono : ∀ a b va vb, s.visited a = true → s.visited b = false →
    s.dist a = some va → s.dist b = some vb → va ≤ vb

theorem initState_dist (g : CostGrid) (targets : List Cell) (c : Cell) :
    (initState g targets).dist c =
      if isSeed g targets c then some 0 else none := rfl

theorem inv_init (g : CostGrid) (targets : List Cell) :
    SolveInv g targets (initState g targets) := by
  have hdist : ∀ c v, (initState g targets).dist c = some v →
      isSeed g targets c ∧ v = 0 := by
    intro c v h
    rw [initState_dist] at h
    by_cases hs : isSeed g targets c
    · rw [if_pos hs] at h
      exact ⟨hs, (Option.some.inj h).symm⟩
    · rw [if_neg hs] at h
      exact absurd h (by simp)
  constructor
  · intro c hc
    obtain ⟨v, hv⟩ := Option.ne_none_iff_exists'.mp hc
    obtain ⟨hs, _⟩ := hdist c v hv
    exact ⟨hs.2.1, hs.2.2⟩
  · intro c h
    exact absurd h (by simp [initState])
  · intro c v h
    obtain ⟨_, rfl⟩ := hdist c v h
    exact le_refl 0
  · intro c hs
    rw [initState_dist, if_pos hs]
  · intro c v h
    exact Or.inl (hdist c v h).1
  · intro c v h
    obtain ⟨hs, rfl⟩ := hdist c v h
    refine ⟨[c], ⟨⟨?_, ?_⟩, ⟨c, rfl, hs⟩, rfl⟩, rfl⟩
    · intro x hx
      rw [List.mem_singleton] at hx
      subst hx
      exact ⟨hs.2.1, hs.2.2⟩
    · exact List.chain'_singleton c
  · intro m vm h
    exact absurd h (by simp [initState])
  · intro a b va vb h
    exact absurd h (by simp [initState])

theorem inv_expand (g : CostGrid) (targets : List Cell) (s : SolveState) (n : Cell)
    (hInv : SolveInv g targets s)
    (hsel : selectMin s (waveFrontier g s) = some n) :
    SolveInv g targets (expand g s n) := by
  have hmemf := selectMin_mem _ _ _ hsel
  rw [mem_waveFrontier] at hmemf
  obtain ⟨hnib, hnvis, hnsome⟩ := hmemf
  obtain ⟨vn, hvn⟩ := Option.isSome_iff_exists.mp hnsome
  have hmin := selectMin_le _ _ _ hsel
  have hexp : expand g s n =
      (neighborsOf n).foldl (relaxInto g vn n) (markVisited s n) := by
    unfold expand
    rw [hvn]
  rw [hexp]
  set st0 := markVisited s n with hst0
  set sF := (neighborsOf n).foldl (relaxInto g vn n) st0 with hsF
  have hvisF : sF.visited = st0.visited := foldRelax_visited g vn n _ st0
  have hvisF_iff : ∀ x, sF.visited x = true ↔ x = n ∨ s.visited x = true := by
    intro x
    rw [hvisF]
    exact markVisited_cases s n x
  have hdistF_vis : ∀ x, s.visited x = true → sF.dist x = s.dist x := by
    intro x hx
    have hx0 : st0.visited x = true := by
      rw [hst0, markVisited_cases]; exact Or.inr hx
    rw [hsF, foldRelax_dist_of_visited g vn n _ st0 x hx0]
    rfl
  have hdistFn : sF.dist n = some vn := by
    have hn0 : st0.visited n = true := markVisited_self s n
    rw [hsF, foldRelax_dist_of_visited g vn n _ st0 n hn0]
    exact hvn
  have hstep0 : ∀ a b : Cell, 0 ≤ stepCost g a b := stepCost_nonneg g
  have hvn0 : 0 ≤ vn := hInv.nonneg n vn hvn
  have hfront : ∀ b vb, s.visited b = false → s.dist b = some vb →
      b ∈ waveFrontier g s := by
    intro b vb hbv hbd
    rw [mem_waveFrontier]
    exact ⟨(hInv.dom b (by rw [hbd]; simp)).1, hbv, by rw [hbd]; rfl⟩
  have hcases : ∀ x v, sF.dist x = some v →
      s.dist x = some v ∨
        (adjacent n x ∧ inBounds g x ∧ passable g x ∧ st0.visited x = false ∧
          v = vn + stepCost g n x) :=
    fun x v h => foldRelax_cases g vn n _ st0 x v h
  constructor
  case dom =>
    intro c hc
    obtain ⟨v, hv⟩ := Option.ne_none_iff_exists'.mp hc
    rcases hcases c v hv with h | ⟨_, hib, hpa, _, _⟩
    · exact hInv.dom c (by rw [h]; simp)
    · exact ⟨hib, hpa⟩
  case visFin =>
    intro c hc
    rcases (hvisF_iff c).mp hc with rfl | hv
    · rw [hdistFn]; simp
    · have hne := hInv.visFin c hv
      obtain ⟨v, hv2⟩ := Option.ne_none_iff_exists'.mp hne
      obtain ⟨v', hv', _⟩ := foldRelax_mono g vn n _ st0 c v (by rw [hst0]; exact hv2)
      rw [hsF, hv']
      simp
  case nonneg =>
    intro c v hv
    rcases hcases c v hv with h | ⟨_, _, _, _, rfl⟩
    · exact hInv.nonneg c v h
    · exact add_nonneg hvn0 (hstep0 n c)
  case seed0 =>
    intro c hs
    have h0 : st0.dist c = some 0 := hInv.seed0 c hs
    obtain ⟨v', hv', hle⟩ := foldRelax_mono g vn n _ st0 c 0 h0
    have h0' : 0 ≤ v' := by
      rcases hcases c v' (by rw [hsF]; exact hv') with h | ⟨_, _, _, _, rfl⟩
      · exact hInv.nonneg c v' h
      · exact add_nonneg hvn0 (hstep0 n c)
    rw [hsF, hv', le_antisymm hle h0']
  case parent =>
    intro c v hv
    rcases hcases c v hv with h | ⟨hadj, _, _, _, rfl⟩
    · rcases hInv.parent c v h with hs | ⟨m, vm, hadj, hmv, hmd, hv2⟩
      · exact Or.inl hs
      · refine Or.inr ⟨m, vm, hadj, (hvisF_iff m).mpr (Or.inr hmv), ?_, hv2⟩
        rw [hdistF_vis m hmv]
        exact hmd
    · exact Or.inr ⟨n, vn, hadj, (hvisF_iff n).mpr (Or.inl rfl), hdistFn, rfl⟩
  case pathwit =>
    intro c v hv
    rcases hcases c v hv with h | ⟨hadj, hib, hpa, _, rfl⟩
    · exact hInv.pathwit c v h
    · obtain ⟨p, ⟨⟨hpm, hpc⟩, ⟨s0, hh, hs0⟩, hlast⟩, hcost⟩ := hInv.pathwit n vn hvn
      have hpne : p ≠ [] := by
        intro h0
        rw [h0] at hlast
        exact Option.noConfusion hlast
      refine ⟨p ++ [c], ⟨⟨?_, ?_⟩, ⟨s0, ?_, hs0⟩, ?_⟩, ?_⟩
      · intro x hx
        rcases List.mem_append.mp hx with h1 | h1
        · exact hpm x h1
        · rw [List.mem_singleton] at h1
          subst h1
          exact ⟨hib, hpa⟩
      · rw [List.chain'_append]
        refine ⟨hpc, List.chain'_singleton c, ?_⟩
        intro x hx y hy
        rw [hlast, Option.mem_some_iff] at hx
        have hy' : c = y := by simpa using hy
        subst hx
        rw [← hy']
        exact hadj
      · cases p with
        | nil => exact absurd rfl hpne
        | cons a t => exact hh
      · rw [List.getLast?_concat]
      · rw [pathCost_append g p [c] n c hlast rfl, hcost]
        show vn + stepCost g n c + 0 = vn + stepCost g n c
        rw [add_zero]
  case relaxed =>
    intro m vm hmvF hmdF c hadj hib hpa
    rcases (hvisF_iff m).mp hmvF with rfl | hmv
    · have hvm : vm = vn := Option.some.inj (hmdF.symm.trans hdistFn)
      subst hvm
      by_cases hc0 : st0.visited c = true
      · rcases (markVisited_cases s m c).mp hc0 with rfl | hcv
        · exact absurd hadj (adjacent_irrefl _)
        · have hcd := hInv.visFin c hcv
          obtain ⟨vc, hvc⟩ := Option.ne_none_iff_exists'.mp hcd
          have hle : vc ≤ vm := hInv.popMono c m vc vm hcv hnvis hvc hvn
          refine ⟨vc, ?_, le_trans hle (le_add_of_nonneg_right (hstep0 m c))⟩
          rw [hdistF_vis c hcv]
          exact hvc
      · have hc0' : st0.visited c = false := by
          cases h : st0.visited c
          · rfl
          · exact absurd h hc0
        exact foldRelax_bound g vm m _ st0 c hadj hib hpa hc0'
    · have hmd : s.dist m = some vm := by
        rw [← hdistF_vis m hmv]
        exact hmdF
      obtain ⟨vc, hvc, hle⟩ := hInv.relaxed m vm hmv hmd c hadj hib hpa
      obtain ⟨vc', hvc', hle'⟩ := foldRelax_mono g vn n _ st0 c vc (by rw [hst0]; exact hvc)
      exact ⟨vc', by rw [hsF]; exact hvc', le_trans hle' hle⟩
  case popMono =>
    intro a b va vb havF hbvF hadF hbdF
    have hbvs : s.visited b = false := by
      cases h : s.visited b
      · rfl
      · exact absurd ((hvisF_iff b).mpr (Or.inr h)) (by rw [hbvF]; simp)
    rcases (hvisF_iff a).mp havF with rfl | hav
    · have hva : va = vn := Option.some.inj (hadF.symm.trans hdistFn)
      subst hva
      rcases hcases b vb hbdF with h | ⟨_, _, _, _, rfl⟩
      · exact hmin b (hfront b vb hbvs h) vb va h hvn
      · exact le_add_of_nonneg_right (hstep0 a b)
    · have had : s.dist a = some va := by
        rw [← hdistF_vis a hav]
        exact hadF
      rcases hcases b vb hbdF with h | ⟨_, _, _, _, rfl⟩
      · exact hInv.popMono a b va vb hav hbvs had h
      · have h1 : va ≤ vn := hInv.popMono a n va vn hav hnvis had hvn
        exact le_trans h1 (le_add_of_nonneg_right (hstep0 n b))

theorem inv_loopN (g : CostGrid) (targets : List Cell) :
    ∀ (fuel : ℕ) (s : SolveState), SolveInv g targets s →
      SolveInv g targets (loopN g fuel s) := by
  intro fuel
  induction fuel with
  | zero => intro s h; exact h
  | succ k ih =>
    intro s h
    show SolveInv g targets
      (match selectMin s (waveFrontier g s) with
       | none => s
       | some n => loopN g k (expand g s n))
    cases hsel : selectMin s (waveFrontier g s) with
    | none => exact h
    | some n => exact ih (expand g s n) (inv_expand g targets s n h hsel)

/-- The number of unsettled cells, the loop's termination measure. -/
def unvisitedCount (g : CostGrid) (s : SolveState) : ℕ :=
  (allCells g).countP fun c => !s.visited c

theorem countP_lt_of_witness {α : Type} (l : List α) (p q : α → Bool)
    (himp : ∀ a ∈ l, q a = true → p a = true) (a : α) (ha : a ∈ l)
    (hpa : p a = true) (hqa : q a = false) : l.countP q < l.countP p := by
  induction l with
  | nil => exact absurd ha (List.not_mem_nil a)
  | cons x t ih =>
    rw [List.countP_cons, List.countP_cons]
    rcases List.mem_cons.mp ha with h | ha'
    · rw [← h, hpa, hqa]
      have hle : t.countP q ≤ t.countP p :=
        List.countP_mono_left fun b hb => himp b (List.mem_cons_of_mem x hb)
      norm_num
      omega
    · have hlt : t.countP q < t.countP p :=
        ih (fun b hb hq => himp b (List.mem_cons_of_mem x hb) hq) ha'
      have hif : (if q x = true then 1 else 0) ≤ (if p x = true then 1 else 0) := by
        by_cases hq : q x = true
        · rw [hq, himp x (List.mem_cons_self x t) hq]
        · rw [if_neg hq]
          exact Nat.zero_le _
      omega

theorem expand_unvisited_lt (g : CostGrid) (targets : List Cell) (s : SolveState)
    (n : Cell) (_hInv : SolveInv g targets s)
    (hsel : selectMin s (waveFrontier g s) = some n) :
    unvisitedCount g (expand g s n) < unvisitedCount g s := by
  have hmemf := selectMin_mem _ _ _ hsel
  rw [mem_waveFrontier] at hmemf
  obtain ⟨hnib, hnvis, hnsome⟩ := hmemf
  obtain ⟨vn, hvn⟩ := Option.isSome_iff_exists.mp hnsome
  have hexp : expand g s n =
      (neighborsOf n).foldl (relaxInto g vn n) (markVisited s n) := by
    unfold expand
    rw [hvn]
  unfold unvisitedCount
  apply countP_lt_of_witness (allCells g) (fun c => !s.visited c)
    (fun c => !(expand g s n).visited c) ?_ n ((mem_allCells g n).mpr hnib) ?_ ?_
  · intro a _ hq
    rw [hexp, foldRelax_visited] at hq
    simp only [Bool.not_eq_true'] at hq ⊢
    by_cases hav : s.visited a = true
    · rw [((markVisited_cases s n a).mpr (Or.inr hav))] at hq
      exact absurd hq (by simp)
    · cases h : s.visited a
      · rfl
      · exact absurd h hav
  · show (!s.visited n) = true
    rw [hnvis]
    rfl
  · show (!(expand g s n).visited n) = false
    rw [hexp, foldRelax_visited, markVisited_self]
    rfl

theorem loopN_drains (g : CostGrid) (targets : List Cell) :
    ∀ (fuel : ℕ) (s : SolveState), SolveInv g targets s →
      unvisitedCount g s ≤ fuel → waveFrontier g (loopN g fuel s) = [] := by
  intro fuel
  induction fuel with
  | zero =>
    intro s _ hcount
    show waveFrontier g s = []
    have hz : (allCells g).countP (fun c => !s.visited c) = 0 := Nat.le_zero.mp hcount
    rw [List.countP_eq_zero] at hz
    unfold waveFrontier
    rw [List.filter_eq_nil_iff]
    intro c hc
    have hvc : ¬ (!s.visited c) = true := hz c hc
    simp only [Bool.not_eq_true'] at hvc
    simp only [Bool.and_eq_true, Bool.not_eq_true']
    rintro ⟨h1, _⟩
    exact absurd h1 hvc
  | succ k ih =>
    intro s hInv hcount
    show waveFrontier g
      (match selectMin s (waveFrontier g s) with
       | none => s
       | some n => loopN g k (expand g s n)) = []
    cases hsel : selectMin s (waveFrontier g s) with
    | none => exact selectMin_eq_none s _ hsel
    | some n =>
      have hlt := expand_unvisited_lt g targets s n hInv hsel
      exact ih (expand g s n) (inv_expand g targets s n hInv hsel) (by omega)

theorem allCells_length (g : CostGrid) : (allCells g).length = g.w * g.h := by
  unfold allCells
  rw [List.length_flatMap]
  have hmap : (List.range g.w).map
      (List.length ∘ fun x => (List.range g.h).map fun y => ((Int.ofNat x, Int.ofNat y) : Cell)) =
      (List.range g.w).map fun _ => g.h := by
    apply List.map_congr_left
    intro x _
    show ((List.range g.h).map fun y => ((Int.ofNat x, Int.ofNat y) : Cell)).length = g.h
    rw [List.length_map, List.length_range]
  rw [hmap, List.map_const', List.sum_replicate, List.length_range, smul_eq_mul]

theorem solve_inv (g : CostGrid) (targets : List Cell) :
    SolveInv g targets (Solve g targets) :=
  inv_loopN g targets (g.w * g.h) (initState g targets) (inv_init g targets)

theorem solve_frontier_empty (g : CostGrid) (targets : List Cell) :
    waveFrontier g (Solve g targets) = [] := by
  apply loopN_drains g targets (g.w * g.h) (initState g targets) (inv_init g targets)
  calc unvisitedCount g (initState g targets) ≤ (allCells g).length :=
        List.countP_le_length _
    _ = g.w * g.h := allCells_length g

theorem solve_all_visited (g : CostGrid) (targets : List Cell) (c : Cell)
    (h : (Solve g targets).dist c ≠ none) :
    (Solve g targets).visited c = true := by
  cases hv : (Solve g targets).visited c
  · exfalso
    have hib := ((solve_inv g targets).dom c h).1
    have hmem : c ∈ waveFrontier g (Solve g targets) := by
      rw [mem_waveFrontier]
      refine ⟨hib, hv, ?_⟩
      obtain ⟨v, hv2⟩ := Option.ne_none_iff_exists'.mp h
      rw [hv2]
      rfl
    rw [solve_frontier_empty] at hmem
    exact absurd hmem (List.not_mem_nil c)
  · rfl

/-- At the end of the solve, every edge out of a valued cell is relaxed. -/
theorem solve_triangle (g : CostGrid) (targets : List Cell) (m : Cell) (vm : Val)
    (hm : integration g targets m = some vm) (c : Cell) (hadj : adjacent m c)
    (hib : inBounds g c) (hpa : passable g c) :
    ∃ vc, integration g targets c = some vc ∧ vc ≤ vm + stepCost g m c := by
  have hvis : (Solve g targets).visited m = true :=
    solve_all_visited g targets m
      (by rw [show (Solve g targets).dist m = some vm from hm]; simp)
  exact (solve_inv g targets).relaxed m vm hvis hm c hadj hib hpa

theorem solve_walk_bound (g : CostGrid) (targets : List Cell) :
    ∀ (p : List Cell) (a : Cell) (va : Val),
      (∀ c ∈ p, inBounds g c ∧ passable g c) → p.Chain' adjacent →
      p.head? = some a → integration g targets a = some va →
      ∀ c, p.getLast? = some c →
      ∃ v, integration g targets c = some v ∧ v ≤ va + pathCost g p := by
  intro p
  induction p with
  | nil =>
    intro a va _ _ hh
    exact absurd hh (by simp)
  | cons x t ih =>
    intro a va hmem hchain hh hda c hlast
    have hxa : x = a := by simpa using hh
    subst hxa
    cases t with
    | nil =>
      have hca : x = c := by simpa using hlast
      subst hca
      refine ⟨va, hda, ?_⟩
      show va ≤ va + 0
      rw [add_zero]
    | cons b t2 =>
      have hadj : adjacent x b := by
        rw [List.chain'_cons] at hchain
        exact hchain.1
      have hb : inBounds g b ∧ passable g b := hmem b (by simp)
      obtain ⟨vb, hvb, hleb⟩ := solve_triangle g targets x va hda b hadj hb.1 hb.2
      have hlast' : (b :: t2).getLast? = some c := by
        rwa [List.getLast?_cons_cons] at hlast
      obtain ⟨v, hv, hlev⟩ := ih b vb
        (fun d hd => hmem d (List.mem_cons_of_mem x hd))
        ((List.chain'_cons.mp hchain).2) rfl hvb c hlast'
      refine ⟨v, hv, ?_⟩
      rw [pathCost_cons_cons]
      calc v ≤ vb + pathCost g (b :: t2) := hlev
        _ ≤ (va + stepCost g x b) + pathCost g (b :: t2) := by
            exact add_le_add_right hleb _
        _ = va + (stepCost g x b + pathCost g (b :: t2)) := by ring

/-- Any seed path to `c` upper-bounds the Integration Field at `c`: the
solver's value is at most the cost of every actual path from the target
region. -/
theorem solve_le_pathCost (g : CostGrid) (targets : List Cell) (p : List Cell)
    (c : Cell) (hp : SeedPath g targets p c) :
    ∃ v, integration g targets c = some v ∧ v ≤ pathCost g p := by
  obtain ⟨⟨hmem, hchain⟩, ⟨s0, hh, hs0⟩, hlast⟩ := hp
  have h0 : integration g targets s0 = some 0 := (solve_inv g targets).seed0 s0 hs0
  obtain ⟨v, hv, hle⟩ := solve_walk_bound g targets p s0 0 hmem hchain hh h0 c hlast
  refine ⟨v, hv, ?_⟩
  rwa [zero_add] at hle

theorem getLast?_mem_list {α : Type} {l : List α} {a : α}
    (h : l.getLast? = some a) : a ∈ l := by
  obtain ⟨hne, heq⟩ := List.mem_getLast?_eq_getLast (Option.mem_def.mpr h)
  rw [heq]
  exact List.getLast_mem hne

/-- A 2x1 grid with uniform cost 1, the concrete witness grid. -/
def gLine : CostGrid := ⟨2, 1, fun _ => 1⟩


/-- C2: in the Integration Field produced by `Solve`, every reachable
non-target cell has a passable neighbor strictly closer to the target
(smaller integration value), so its value is not smaller than the
minimum value among its passable neighbors closer to the target:
integration values never decrease along an expansion step outward. -/
theorem C2_integration_monotone (g : CostGrid) (targets : List Cell)
    (hwf : WellFormed g) (c : Cell) (vc : Val)
    (hc : integration g targets c = some vc) (hns : ¬ isSeed g targets c) :
    (∃ n, adjacent n c ∧ passable g n ∧
      ∃ vn, integration g targets n = some vn ∧ vn < vc) ∧
      ∀ m vm, adjacent m c → integration g targets m = some vm →
        vm < vc → vm ≤ vc := by
  constructor
  · rcases (solve_inv g targets).parent c vc hc with hs | ⟨m, vm, hadj, _, hmd, hveq⟩
    · exact absurd hs hns
    · refine ⟨m, hadj, ((solve_inv g targets).dom m (by rw [hmd]; simp)).2, vm, hmd, ?_⟩
      rw [hveq]
      exact lt_add_of_pos_right vm (stepCost_pos g hwf m c)
  · intro m vm _ _ hlt
    exact le_of_lt hlt

/-- Witness for C2 on the 2x1 uniform grid with the target at the origin
and the queried cell next to it. -/
theorem C2_integration_monotone_witness :
    (∃ n, adjacent n ((1 : ℤ), (0 : ℤ)) ∧ passable gLine n ∧
      ∃ vn, integration gLine [((0 : ℤ), (0 : ℤ))] n = some vn ∧ vn < (2 : Val)) ∧
      ∀ m vm, adjacent m ((1 : ℤ), (0 : ℤ)) →
        integration gLine [((0 : ℤ), (0 : ℤ))] m = some vm →
        vm < (2 : Val) → vm ≤ (2 : Val) :=
  C2_integration_monotone gLine [((0 : ℤ), (0 : ℤ))]
    (fun _ => ⟨by norm_num [gLine], by norm_num [gLine, IMPASSABLE]⟩)
    ((1 : ℤ), (0 : ℤ)) 2 (by decide) (by decide)

/-- C3: in the Integration Field, every reachable non-target cell was
charged exactly the spec's step cost from some passable neighbor: its
value equals the neighbor's value plus `(cost n + cost c) * scale` in
half-cost units — i.e. half the sum of the two cells' costs scaled by 1
for a cardinal and by sqrt 2 for a diagonal step — and no IMPASSABLE cell
ever receives a finite integration value. -/
theorem C3_step_cost_charged (g : CostGrid) (targets : List Cell)
    (c : Cell) (vc : Val) (hc : integration g targets c = some vc)
    (hns : ¬ isSeed g targets c) :
    (∃ n vn, adjacent n c ∧ passable g n ∧ integration g targets n = some vn ∧
      vc = vn + ((g.cost n + g.cost c : ℕ) : Val) *
        (if isDiagStep n c then Zsqrtd.sqrtd else 1)) ∧
      ∀ x, ¬ passable g x → integration g targets x = none := by
  constructor
  · rcases (solve_inv g targets).parent c vc hc with hs | ⟨m, vm, hadj, _, hmd, hveq⟩
    · exact absurd hs hns
    · exact ⟨m, vm, hadj, ((solve_inv g targets).dom m (by rw [hmd]; simp)).2, hmd, hveq⟩
  · intro x hx
    cases hd : integration g targets x with
    | none => rfl
    | some v =>
      exact absurd ((solve_inv g targets).dom x
        (by rw [show (Solve g targets).dist x = some v from hd]; simp)).2 hx

/-- Witness for C3 on the 2x1 uniform grid. -/
theorem C3_step_cost_charged_witness :
    (∃ n vn, adjacent n ((1 : ℤ), (0 : ℤ)) ∧ passable gLine n ∧
      integration gLine [((0 : ℤ), (0 : ℤ))] n = some vn ∧
      (2 : Val) = vn + ((gLine.cost n + gLine.cost ((1 : ℤ), (0 : ℤ)) : ℕ) : Val) *
        (if isDiagStep n ((1 : ℤ), (0 : ℤ)) then Zsqrtd.sqrtd else 1)) ∧
      ∀ x, ¬ passable gLine x → integration gLine [((0 : ℤ), (0 : ℤ))] x = none :=
  C3_step_cost_charged gLine [((0 : ℤ), (0 : ℤ))] ((1 : ℤ), (0 : ℤ)) 2
    (by decide) (by decide)

/-- C4: a cell the wavefront can never reach (no valid path connects the
target region to it) holds the unreachable sentinel in the Integration
Field and the zero "no-path" vector in the Flow Field, and steering on
that sampled sentinel produces zero velocity for the tick and flags the
agent's Path Request for replanning. -/
theorem C4_no_path_sentinel (g : CostGrid) (targets : List Cell) (c : Cell)
    (ms : ℚ) (hdis : ¬ ∃ p, SeedPath g targets p c) :
    integration g targets c = none ∧ FlowField g targets c = (0, 0) ∧
      SampleVelocity (FlowField g targets c) ms = ⟨(0, 0), true⟩ := by
  have hnone : integration g targets c = none := by
    cases hd : integration g targets c with
    | none => rfl
    | some v =>
      obtain ⟨p, hp, _⟩ := (solve_inv g targets).pathwit c v hd
      exact absurd ⟨p, hp⟩ hdis
  have hflow : FlowField g targets c = (0, 0) := by
    unfold FlowField
    rw [show integration g targets c = none from hnone]
  refine ⟨hnone, hflow, ?_⟩
  rw [hflow]
  rfl

/-- A 1x2 grid whose upper cell is IMPASSABLE: the concrete disconnected
witness. -/
def gWall : CostGrid := ⟨1, 2, fun c => if c.2 = 1 then IMPASSABLE else 1⟩

/-- Witness for C4: the IMPASSABLE cell of `gWall` is disconnected from
the target region, carries the sentinel and the zero vector, and steering
on it holds position and requests a replan. -/
theorem C4_no_path_sentinel_witness :
    integration gWall [((0 : ℤ), (0 : ℤ))] ((0 : ℤ), (1 : ℤ)) = none ∧
      FlowField gWall [((0 : ℤ), (0 : ℤ))] ((0 : ℤ), (1 : ℤ)) = (0, 0) ∧
      SampleVelocity (FlowField gWall [((0 : ℤ), (0 : ℤ))] ((0 : ℤ), (1 : ℤ))) 3 =
        ⟨(0, 0), true⟩ :=
  C4_no_path_sentinel gWall [((0 : ℤ), (0 : ℤ))] ((0 : ℤ), (1 : ℤ)) 3
    (by
      rintro ⟨p, ⟨hmem, _⟩, _, hlast⟩
      have hin := hmem _ (getLast?_mem_list hlast)
      exact absurd hin.2 (by norm_num [passable, gWall, IMPASSABLE]))

/-- Modelled from the spec (§4.6, §4.2): the target region of the first
chunk's field on a route into the next chunk — the A-side boundary cells
of every portal returned by `BuildPortals`. -/
def portalCellsA (gA gB : CostGrid) : List Cell :=
  (BuildPortals gA gB).flatMap fun p =>
    (List.range p.len).map fun i => ((gA.w : ℤ) - 1, ((p.lo + i : ℕ) : ℤ))

/-- Modelled from the spec: the side-by-side combination of two
horizontally adjacent chunks into one grid, chunk B's columns following
chunk A's. -/
def combineGrids (gA gB : CostGrid) : CostGrid :=
  ⟨gA.w + gB.w, gA.h, fun c =>
    if c.1 < (gA.w : ℤ) then gA.cost c else gB.cost (c.1 - gA.w, c.2)⟩

/-- The B-side counterpart, in chunk B's own coordinates, of an A-side
portal cell. -/
def acrossB (gA : CostGrid) (q : Cell) : Cell := (q.1 + 1 - gA.w, q.2)

theorem mem_portalCellsA (gA gB : CostGrid) (q : Cell)
    (hq : q ∈ portalCellsA gA gB) :
    ∃ y : ℕ, q = ((gA.w : ℤ) - 1, (y : ℤ)) ∧ passBoth gA gB y = true := by
  unfold portalCellsA at hq
  rw [List.mem_flatMap] at hq
  obtain ⟨p, hp, hq2⟩ := hq
  rw [List.mem_map] at hq2
  obtain ⟨i, hi, rfl⟩ := hq2
  rw [List.mem_range] at hi
  refine ⟨p.lo + i, rfl, ?_⟩
  unfold BuildPortals at hp
  rw [List.mem_map] at hp
  obtain ⟨r, hr, rfl⟩ := hp
  have hend : passBoth gA gB (0 + gA.h) = false := passBoth_high gA gB _ (by omega)
  have hinv : AccInv (passBoth gA gB) 0 none := Or.inl rfl
  have hmax := ((scanRuns_mem _ _ _ _ r hend hinv).mp hr).1
  exact hmax.2.1 i hi

theorem passBoth_decode (gA gB : CostGrid) (y : ℕ)
    (h : passBoth gA gB y = true) :
    (inBounds gA ((gA.w : ℤ) - 1, (y : ℤ)) ∧ passable gA ((gA.w : ℤ) - 1, (y : ℤ))) ∧
      inBounds gB (0, (y : ℤ)) ∧ passable gB (0, (y : ℤ)) := by
  unfold passBoth at h
  rw [Bool.and_eq_true, decide_eq_true_eq, decide_eq_true_eq] at h
  exact h

theorem combine_cost_left (gA gB : CostGrid) (c : Cell) (h : c.1 < (gA.w : ℤ)) :
    (combineGrids gA gB).cost c = gA.cost c := by
  show (if c.1 < (gA.w : ℤ) then gA.cost c else gB.cost (c.1 - gA.w, c.2)) = gA.cost c
  rw [if_pos h]

theorem combine_cost_right (gA gB : CostGrid) (c : Cell) (h : 0 ≤ c.1) :
    (combineGrids gA gB).cost (shiftCell (gA.w) c) = gB.cost c := by
  show (if (shiftCell (gA.w) c).1 < (gA.w : ℤ) then gA.cost (shiftCell (gA.w) c)
        else gB.cost ((shiftCell (gA.w) c).1 - gA.w, (shiftCell (gA.w) c).2)) = gB.cost c
  have hns : ¬ ((shiftCell (gA.w) c).1 < (gA.w : ℤ)) := by
    show ¬ (c.1 + (gA.w : ℤ) < (gA.w : ℤ))
    omega
  rw [if_neg hns]
  have he : ((shiftCell (gA.w) c).1 - gA.w, (shiftCell (gA.w) c).2) = c := by
    show ((c.1 + (gA.w : ℤ)) - gA.w, c.2) = c
    have h1 : (c.1 + (gA.w : ℤ)) - gA.w = c.1 := by ring
    rw [h1]
  rw [he]

theorem combine_inBounds_left (gA gB : CostGrid) (c : Cell)
    (h : inBounds gA c) : inBounds (combineGrids gA gB) c := by
  obtain ⟨h1, h2, h3, h4⟩ := h
  refine ⟨h1, ?_, h3, h4⟩
  show c.1 < ((gA.w + gB.w : ℕ) : ℤ)
  have : ((gA.w + gB.w : ℕ) : ℤ) = (gA.w : ℤ) + (gB.w : ℤ) := by push_cast; ring
  omega

theorem combine_inBounds_right (gA gB : CostGrid) (hh : gB.h = gA.h) (c : Cell)
    (h : inBounds gB c) : inBounds (combineGrids gA gB) (shiftCell (gA.w) c) := by
  obtain ⟨h1, h2, h3, h4⟩ := h
  have hcast : ((gA.w + gB.w : ℕ) : ℤ) = (gA.w : ℤ) + (gB.w : ℤ) := by push_cast; ring
  refine ⟨?_, ?_, h3, ?_⟩
  · show 0 ≤ c.1 + (gA.w : ℤ)
    omega
  · show c.1 + (gA.w : ℤ) < ((gA.w + gB.w : ℕ) : ℤ)
    omega
  · show c.2 < ((combineGrids gA gB).h : ℤ)
    have : (combineGrids gA gB).h = gA.h := rfl
    rw [this, ← hh]
    exact h4

theorem combine_passable_left (gA gB : CostGrid) (c : Cell)
    (hlt : c.1 < (gA.w : ℤ)) (h : passable gA c) :
    passable (combineGrids gA gB) c := by
  unfold passable at h ⊢
  rw [combine_cost_left gA gB c hlt]
  exact h

theorem combine_passable_right (gA gB : CostGrid) (c : Cell) (h0 : 0 ≤ c.1)
    (h : passable gB c) : passable (combineGrids gA gB) (shiftCell (gA.w) c) := by
  unfold passable at h ⊢
  rw [combine_cost_right gA gB c h0]
  exact h

/-- C6: the coarse route through the Portal Graph never under-approximates
the true in-grid cost. For a start cell in chunk A and a destination in
chunk B, descending chunk A's field (targeted at the portal region from
`BuildPortals`) reaches some portal cell `q` at cost `vA`; crossing there
and descending chunk B's field (targeted at the destination) from the
B-side counterpart costs `vB` more. The concatenated route cost
`vA + crossing step + vB` is at least the shortest-path cost that solving
the combined two-chunk grid assigns between the same cells. -/
theorem C6_coarse_route_overapprox (gA gB : CostGrid) (hh : gB.h = gA.h)
    (start dest : Cell) (hdib : inBounds gB dest) (hdpa : passable gB dest)
    (vA : Val) (hA : integration gA (portalCellsA gA gB) start = some vA) :
    ∃ q, q ∈ portalCellsA gA gB ∧ ∀ vB,
      integration gB [dest] (acrossB gA q) = some vB →
      ∃ vT, integration (combineGrids gA gB) [shiftCell (gA.w) dest] start = some vT ∧
        vT ≤ vA + stepCost (combineGrids gA gB) q (shiftCell (gA.w) (acrossB gA q)) + vB := by
  obtain ⟨pA, ⟨⟨hmemA, hchA⟩, ⟨q, hhA, hseedA⟩, hlastA⟩, hcostA⟩ :=
    (solve_inv gA (portalCellsA gA gB)).pathwit start vA hA
  refine ⟨q, hseedA.1, ?_⟩
  intro vB hB
  obtain ⟨pB, ⟨⟨hmemB, hchB⟩, ⟨s0, hhB, hseedB⟩, hlastB⟩, hcostB⟩ :=
    (solve_inv gB [dest]).pathwit (acrossB gA q) vB hB
  have hs0 : s0 = dest := by
    have hm := hseedB.1
    simpa using hm
  rw [hs0] at hhB
  obtain ⟨y, hqy, hpb⟩ := mem_portalCellsA gA gB q hseedA.1
  obtain ⟨⟨hqib, hqpa⟩, hbib, hbpa⟩ := passBoth_decode gA gB y hpb
  have hacross : acrossB gA q = (0, (y : ℤ)) := by
    rw [hqy]
    show (((gA.w : ℤ) - 1) + 1 - gA.w, (y : ℤ)) = (0, (y : ℤ))
    have he : ((gA.w : ℤ) - 1) + 1 - gA.w = 0 := by ring
    rw [he]
  have hpAne : pA ≠ [] := fun h0 => by
    rw [h0] at hlastA; exact Option.noConfusion hlastA
  have hpBne : pB ≠ [] := fun h0 => by
    rw [h0] at hlastB; exact Option.noConfusion hlastB
  have hA_x : ∀ c ∈ pA, c.1 < (gA.w : ℤ) := fun c hc => (hmemA c hc).1.2.1
  have hlastBm : (pB.map (shiftCell gA.w)).getLast? =
      some (shiftCell gA.w (acrossB gA q)) := by
    rw [List.getLast?_map, hlastB]
    rfl
  have hadj_junction : adjacent (shiftCell gA.w (acrossB gA q)) q := by
    rw [hacross, hqy]
    rw [adjacent_iff]
    refine ⟨(-1, 0), by decide, ?_⟩
    show ((gA.w : ℤ) - 1, (y : ℤ)) = cadd (shiftCell gA.w (0, (y : ℤ))) (-1, 0)
    unfold cadd shiftCell
    show ((gA.w : ℤ) - 1, (y : ℤ)) = (0 + (gA.w : ℤ) + -1, (y : ℤ) + 0)
    have e1 : (0 : ℤ) + (gA.w : ℤ) + -1 = (gA.w : ℤ) - 1 := by ring
    have e2 : (y : ℤ) + 0 = (y : ℤ) := by ring
    rw [e1, e2]
  have hmemQ : ∀ c ∈ (pB.map (shiftCell gA.w)) ++ pA,
      inBounds (combineGrids gA gB) c ∧ passable (combineGrids gA gB) c := by
    intro c hc
    rcases List.mem_append.mp hc with h1 | h1
    · rw [List.mem_map] at h1
      obtain ⟨b, hb, rfl⟩ := h1
      obtain ⟨hbi, hbp⟩ := hmemB b hb
      exact ⟨combine_inBounds_right gA gB hh b hbi,
             combine_passable_right gA gB b hbi.1 hbp⟩
    · obtain ⟨hai, hap⟩ := hmemA c h1
      exact ⟨combine_inBounds_left gA gB c hai,
             combine_passable_left gA gB c hai.2.1 hap⟩
  have hchQ : ((pB.map (shiftCell gA.w)) ++ pA).Chain' adjacent := by
    rw [List.chain'_append]
    refine ⟨?_, hchA, ?_⟩
    · rw [List.chain'_map]
      exact hchB.imp fun a b hab => adjacent_shift (gA.w : ℤ) hab
    · intro x hx y2 hy2
      rw [hlastBm, Option.mem_some_iff] at hx
      rw [hhA, Option.mem_some_iff] at hy2
      rw [← hx, ← hy2]
      exact hadj_junction
  have hheadQ : ((pB.map (shiftCell gA.w)) ++ pA).head? =
      some (shiftCell gA.w dest) := by
    cases pB with
    | nil => exact absurd rfl hpBne
    | cons b t =>
      have hbdest : b = dest := by simpa using hhB
      subst hbdest
      rfl
  have hlastQ : ((pB.map (shiftCell gA.w)) ++ pA).getLast? = some start := by
    rw [List.getLast?_append_of_ne_nil _ hpAne]
    exact hlastA
  have hseedC : isSeed (combineGrids gA gB) [shiftCell gA.w dest]
      (shiftCell gA.w dest) := by
    refine ⟨by simp, combine_inBounds_right gA gB hh dest hdib,
      combine_passable_right gA gB dest hdib.1 hdpa⟩
  obtain ⟨vT, hvT, hle⟩ := solve_le_pathCost (combineGrids gA gB)
    [shiftCell gA.w dest] ((pB.map (shiftCell gA.w)) ++ pA) start
    ⟨⟨hmemQ, hchQ⟩, ⟨shiftCell gA.w dest, hheadQ, hseedC⟩, hlastQ⟩
  refine ⟨vT, hvT, ?_⟩
  have hcB : pathCost (combineGrids gA gB) (pB.map (shiftCell gA.w)) = vB := by
    rw [pathCost_map_shift gB (combineGrids gA gB) (gA.w) pB
      (fun c hc => combine_cost_right gA gB c (hmemB c hc).1.1)]
    exact hcostB
  have hcA : pathCost (combineGrids gA gB) pA = vA := by
    rw [pathCost_congr (combineGrids gA gB) gA pA
      (fun c hc => combine_cost_left gA gB c (hA_x c hc))]
    exact hcostA
  have hcost : pathCost (combineGrids gA gB) ((pB.map (shiftCell gA.w)) ++ pA) =
      vB + stepCost (combineGrids gA gB) (shiftCell gA.w (acrossB gA q)) q + vA := by
    rw [pathCost_append (combineGrids gA gB) _ _ _ _ hlastBm hhA, hcB, hcA]
  rw [hcost] at hle
  calc vT ≤ vB + stepCost (combineGrids gA gB) (shiftCell gA.w (acrossB gA q)) q + vA :=
        hle
    _ = vA + stepCost (combineGrids gA gB) q (shiftCell gA.w (acrossB gA q)) + vB := by
        rw [stepCost_symm]
        ring

/-- A single passable 1x1 chunk used as both sides of the C6 witness. -/
def gUnit : CostGrid := ⟨1, 1, fun _ => 1⟩

/-- Witness for C6 on two adjacent 1x1 chunks with start and destination
at their single cells. -/
theorem C6_coarse_route_overapprox_witness :
    ∃ q, q ∈ portalCellsA gUnit gUnit ∧ ∀ vB,
      integration gUnit [((0 : ℤ), (0 : ℤ))] (acrossB gUnit q) = some vB →
      ∃ vT, integration (combineGrids gUnit gUnit)
          [shiftCell (gUnit.w) ((0 : ℤ), (0 : ℤ))] ((0 : ℤ), (0 : ℤ)) = some vT ∧
        vT ≤ 0 + stepCost (combineGrids gUnit gUnit) q
          (shiftCell (gUnit.w) (acrossB gUnit q)) + vB :=
  C6_coarse_route_overapprox gUnit gUnit rfl ((0 : ℤ), (0 : ℤ)) ((0 : ℤ), (0 : ℤ))
    (by decide) (by decide) 0 (by decide)
